import Mathlib

/-! stock_monitor: a verification development

Shallow embedding of the C++ sources `include/core/CircularBuffer.h`,
`include/core/PriceData.h`, `include/core/StockMonitor.h` and
`src/core/StockMonitor.cpp`.

Modelling conventions
* `size_t` / `uint64_t` values are natural numbers; where the source can wrap
  (additions on `uint64_t`, signed-to-unsigned conversions) the reduction modulo
  `2^64` is written out.
* `double` is idealised as the ordered field `ℚ`: no rounding, no NaN, no infinities.
* `std::unordered_map<std::string, V>` is an association list with unique keys; the
  order of the list stands for the (unspecified) iteration order of the table.
* Wall-clock reads (`system_clock::now()`) are inputs of the operation that reads them.
* The alert callback is observed through the list of snapshots it was invoked with.
* Locks are not modelled: every operation is executed atomically (sequential runs).
-/

set_option linter.unusedSectionVars false
set_option linter.unusedVariables false

namespace stock_monitor

/-! ## CircularBuffer.h -/

/-- The class `CircularBuffer<T>`: the private members, in declaration order. -/
structure CircularBuffer (α : Type) where
  capacity_ : Nat
  buffer_ : List α
  head_ : Nat
  tail_ : Nat
  size_ : Nat

namespace CircularBuffer

variable {α : Type} [Inhabited α]

/-- The constructor `CircularBuffer(capacity)`: `buffer_(capacity)` value-initialises
`capacity` slots. -/
def new (capacity : Nat) : CircularBuffer α :=
  { capacity_ := capacity
    buffer_ := List.replicate capacity default
    head_ := 0
    tail_ := 0
    size_ := 0 }

/-- The method `push` (`push_fast` has the same body, with `memcpy` for the store). -/
def push (b : CircularBuffer α) (item : α) : CircularBuffer α :=
  let buffer := b.buffer_.set b.tail_ item
  let tail := (b.tail_ + 1) % b.capacity_
  if b.size_ = b.capacity_ then
    { b with buffer_ := buffer, tail_ := tail, head_ := (b.head_ + 1) % b.capacity_ }
  else
    { b with buffer_ := buffer, tail_ := tail, size_ := b.size_ + 1 }

/-- The loop of `get_all`: `k` iterations remain, `current` is the running index and
`result` the vector built so far. -/
def get_all_loop (b : CircularBuffer α) : Nat → Nat → List α → List α
  | 0, _, result => result
  | k + 1, current, result =>
    get_all_loop b k ((current + 1) % b.capacity_) (result ++ [b.buffer_.getD current default])

/-- The method `get_all`. -/
def get_all (b : CircularBuffer α) : List α :=
  get_all_loop b b.size_ b.head_ []

/-- The method `get_recent`. -/
def get_recent (b : CircularBuffer α) (n : Nat) : List α :=
  let n := min n b.size_
  let start := (b.tail_ + b.capacity_ - n) % b.capacity_
  (List.range n).map (fun i => b.buffer_.getD ((start + i) % b.capacity_) default)

/-- The method `size`. -/
def size (b : CircularBuffer α) : Nat := b.size_

/-- The method `capacity`. -/
def capacity (b : CircularBuffer α) : Nat := b.capacity_

/-- The method `empty`. -/
def empty (b : CircularBuffer α) : Bool := b.size_ == 0

/-- The method `full`. -/
def full (b : CircularBuffer α) : Bool := b.size_ == b.capacity_

/-- The method `clear`: the slots keep their old contents. -/
def clear (b : CircularBuffer α) : CircularBuffer α :=
  { b with head_ := 0, tail_ := 0, size_ := 0 }

/-- The representation invariant of a `CircularBuffer` object with positive capacity: it
holds after the constructor and is kept by `push` and `clear` (see `WF_new`, `WF_push`,
`WF_clear`), so it holds of every buffer a program can observe. -/
structure WF (b : CircularBuffer α) : Prop where
  cap_pos : 0 < b.capacity_
  buf_len : b.buffer_.length = b.capacity_
  head_lt : b.head_ < b.capacity_
  size_le : b.size_ ≤ b.capacity_
  tail_eq : b.tail_ = (b.head_ + b.size_) % b.capacity_

/-- The mutating operations of the public interface. -/
inductive Op (α : Type) where
  | push (item : α)
  | clear

/-- Apply one operation. -/
def applyOp (b : CircularBuffer α) : Op α → CircularBuffer α
  | Op.push item => b.push item
  | Op.clear => b.clear

/-- The live elements read off the representation, oldest first: slot `head_ + i` (modulo
the capacity) for `i < size_`. -/
def contents (b : CircularBuffer α) : List α :=
  (List.range b.size_).map (fun i => b.buffer_.getD ((b.head_ + i) % b.capacity_) default)

end CircularBuffer

/-- The last `k` elements of a list, in order (the whole list when it is shorter). -/
def lastN {α : Type} (k : Nat) (l : List α) : List α := l.drop (l.length - k)


/-! ## PriceData.h -/

/-- The struct `PricePoint`. -/
structure PricePoint where
  price : ℚ
  timestamp : Nat
  volume : Nat
  deriving DecidableEq

/-- A value-initialised `PricePoint` (what `buffer_(capacity)` fills the slots with). -/
instance : Inhabited PricePoint := ⟨⟨0, 0, 0⟩⟩

/-- The struct `TradeData`. -/
structure TradeData where
  symbol : String
  price : ℚ
  volume : Nat
  timestamp : Nat
  exchange : String
  deriving DecidableEq

/-- The struct `QuoteData`. -/
structure QuoteData where
  symbol : String
  bid_price : ℚ
  bid_size : Nat
  ask_price : ℚ
  ask_size : Nat
  timestamp : Nat
  exchange : String
  deriving DecidableEq

/-! ## Machine arithmetic and `std::unordered_map` -/

/-- Conversion of a signed 64-bit value to `uint64_t` (reduction modulo `2^64`). -/
def toUInt64 (z : Int) : Nat := (z % 18446744073709551616).toNat

/-- Addition on `uint64_t`. -/
def addUInt64 (a b : Nat) : Nat := (a + b) % 18446744073709551616

namespace UMap

variable {β : Type}

/-- The lookup `m.find(key)`: `none` stands for `end()`. -/
def find : List (String × β) → String → Option β
  | [], _ => none
  | (k, v) :: rest, key => if k = key then some v else find rest key

/-- The statement `m[key] = v`: overwrite the entry if the key is present, insert otherwise. -/
def assign : List (String × β) → String → β → List (String × β)
  | [], key, v => [(key, v)]
  | (k, w) :: rest, key, v => if k = key then (k, v) :: rest else (k, w) :: assign rest key v

/-- The call `m.erase(key)`. -/
def erase (m : List (String × β)) (key : String) : List (String × β) :=
  m.filter (fun e => decide (e.1 ≠ key))

/-- The keys of the table. -/
def keys (m : List (String × β)) : List String := m.map Prod.fst

end UMap

/-! ## StockMonitor.h -/

/-- The struct `StockMonitor::Config` with its default member initialisers. -/
structure Config where
  buffer_size : Nat := 120
  threshold_min : ℚ := 9
  threshold_max : ℚ := 13
  max_stocks : Nat := 10000
  cleanup_interval_ms : Nat := 60000
  deriving DecidableEq

/-- The struct `StockMonitor::AlertData`. -/
structure AlertData where
  symbol : String
  change_percent : ℚ
  current_price : ℚ
  min_price : ℚ
  max_price : ℚ
  volume : Nat
  timestamp : Nat
  webull_url : String
  deriving DecidableEq

/-- The struct `StockMonitor::StockBuffer` (without its mutex). -/
structure StockBuffer where
  buffer : CircularBuffer PricePoint
  last_update : Nat
  last_price : ℚ

/-- The constructor `StockBuffer(capacity)`. -/
def StockBuffer.new (capacity : Nat) : StockBuffer :=
  { buffer := CircularBuffer.new capacity, last_update := 0, last_price := 0 }

/-- The data members of the class `StockMonitor`. The member `alert_callback_` is
represented by whether a callback is installed. -/
structure StockMonitor where
  config_ : Config
  stock_buffers_ : List (String × StockBuffer)
  threshold_stocks_ : List (String × AlertData)
  total_updates_ : Nat
  total_processing_time_ns_ : Nat
  updates_last_second_ : Nat
  alert_callback_ : Bool

/-- The constructor `StockMonitor(config)`: empty tables, zero counters, no callback. -/
def StockMonitor.new (config : Config) : StockMonitor :=
  { config_ := config
    stock_buffers_ := []
    threshold_stocks_ := []
    total_updates_ := 0
    total_processing_time_ns_ := 0
    updates_last_second_ := 0
    alert_callback_ := false }

/-- The method `set_alert_callback`. -/
def StockMonitor.set_alert_callback (m : StockMonitor) : StockMonitor :=
  { m with alert_callback_ := true }

/-! ## StockMonitor.cpp: PriceCalculator -/

section PriceCalculator

variable {α : Type} [LinearOrder α]

/-- A 256-bit register of four lanes (`__m256d`). -/
structure M256d (α : Type) where
  lane0 : α
  lane1 : α
  lane2 : α
  lane3 : α

/-- The intrinsic `_mm256_set1_pd`. -/
def mm256_set1_pd (x : α) : M256d α := ⟨x, x, x, x⟩

/-- One lane of `_mm256_min_pd(a, b)`: `a < b ? a : b`. -/
def minpd (a b : α) : α := if a < b then a else b

/-- One lane of `_mm256_max_pd(a, b)`: `a > b ? a : b`. -/
def maxpd (a b : α) : α := if a > b then a else b

/-- The intrinsic `_mm256_min_pd`. -/
def mm256_min_pd (a b : M256d α) : M256d α :=
  ⟨minpd a.lane0 b.lane0, minpd a.lane1 b.lane1, minpd a.lane2 b.lane2, minpd a.lane3 b.lane3⟩

/-- The intrinsic `_mm256_max_pd`. -/
def mm256_max_pd (a b : M256d α) : M256d α :=
  ⟨maxpd a.lane0 b.lane0, maxpd a.lane1 b.lane1, maxpd a.lane2 b.lane2, maxpd a.lane3 b.lane3⟩

/-- The function `std::min(a, b)`: `(b < a) ? b : a`. -/
def std_min (a b : α) : α := if b < a then b else a

/-- The function `std::max(a, b)`: `(a < b) ? b : a`. -/
def std_max (a b : α) : α := if a < b then b else a

/-- The call `*std::min_element(arr, arr + 4)` on the stored register: the first smallest. -/
def min_element4 (v : M256d α) : α :=
  let smallest := v.lane0
  let smallest := if v.lane1 < smallest then v.lane1 else smallest
  let smallest := if v.lane2 < smallest then v.lane2 else smallest
  if v.lane3 < smallest then v.lane3 else smallest

/-- The call `*std::max_element(arr, arr + 4)` on the stored register: the first largest. -/
def max_element4 (v : M256d α) : α :=
  let largest := v.lane0
  let largest := if largest < v.lane1 then v.lane1 else largest
  let largest := if largest < v.lane2 then v.lane2 else largest
  if largest < v.lane3 then v.lane3 else largest

/-- The four-lane loop `for (; i + 3 < count; i += 4)` of `calculate_min_max_avx2`, run on
the prices from index `i` on: it consumes four prices per iteration while at least four
remain, and returns both registers and the prices left for the scalar loop. -/
def avx2_loop : List α → M256d α → M256d α → M256d α × M256d α × List α
  | p0 :: p1 :: p2 :: p3 :: rest, min_vec, max_vec =>
    avx2_loop rest (mm256_min_pd min_vec ⟨p0, p1, p2, p3⟩) (mm256_max_pd max_vec ⟨p0, p1, p2, p3⟩)
  | rest, min_vec, max_vec => (min_vec, max_vec, rest)

/-- The scalar loop `for (; i < count; ++i)` of `calculate_min_max_avx2`. -/
def scalar_tail : List α → α → α → α × α
  | [], min_out, max_out => (min_out, max_out)
  | p :: rest, min_out, max_out => scalar_tail rest (std_min min_out p) (std_max max_out p)

/-- The function `PriceCalculator::calculate_min_max_avx2`; `none` is the early return on
`count == 0`, which writes neither output. -/
def calculate_min_max_avx2 (prices : List α) : Option (α × α) :=
  match prices with
  | [] => none
  | p0 :: _ =>
    let r := avx2_loop prices (mm256_set1_pd p0) (mm256_set1_pd p0)
    some (scalar_tail r.2.2 (min_element4 r.1) (max_element4 r.2.1))

/-- The scalar reduction of the specification: a left-to-right fold of `min` and `max`
starting from the first price; defined for non-empty sequences. -/
def scalar_min_max : List α → Option (α × α)
  | [] => none
  | p :: rest => some (rest.foldl (fun acc x => (min acc.1 x, max acc.2 x)) (p, p))

end PriceCalculator

/-! ## StockMonitor.cpp: StockMonitor -/

/-- The values `analyze_buffer_simd` writes to its four output parameters. -/
structure Analysis where
  change_percent : ℚ
  min_price : ℚ
  max_price : ℚ
  current_price : ℚ
  deriving DecidableEq

/-- The window filter of `analyze_buffer_simd`: `point.timestamp >= two_minutes_ago`, an
unsigned comparison (the signed right-hand side is converted to `uint64_t`). -/
def in_window (now : Int) (point : PricePoint) : Bool :=
  decide (point.timestamp ≥ toUInt64 (now - 120000))

/-- The method `StockMonitor::analyze_buffer_simd`; `now` is the wall clock it reads,
`none` is `return false`, `some` carries the outputs of `return true`. -/
def analyze_buffer_simd (buffer : StockBuffer) (now : Int) : Option Analysis :=
  let data := buffer.buffer.get_recent 120
  if data.length < 10 then none
  else
    let prices := (data.filter (in_window now)).map PricePoint.price
    if prices.length < 5 then none
    else
      let current_price := prices.getLastD 0
      match calculate_min_max_avx2 prices with
      | none => none
      | some (min_price, max_price) =>
        let change_percent :=
          if min_price > 0 then ((current_price - min_price) / min_price) * 100 else 0
        some ⟨change_percent, min_price, max_price, current_price⟩

/-- The local `prices` of `analyze_buffer_simd`: the prices of the points of
`get_recent(120)` that pass the window filter, in buffer order. -/
def analysis_prices (buffer : StockBuffer) (now : Int) : List ℚ :=
  ((buffer.buffer.get_recent 120).filter (in_window now)).map PricePoint.price

/-- The static table `exchange_map` of `generate_webull_link`. -/
def exchange_map : List (String × String) :=
  [("NASDAQ", "nasdaq"), ("NYSE", "nyse"), ("AMEX", "amex"), ("ARCA", "arca")]

/-- The method `StockMonitor::generate_webull_link`. -/
def generate_webull_link (symbol exchange : String) : String :=
  let mapped_exchange :=
    match UMap.find exchange_map exchange with
    | some slug => slug
    | none => "nasdaq"
  let lower_symbol := String.mk (symbol.data.map Char.toLower)
  "https://www.webull.com/quote/" ++ mapped_exchange ++ "-" ++ lower_symbol

/-- The clock reads of one `process_trade` call: `system_clock` at the append, in the
analysis and in the alert constructor, and the `high_resolution_clock` difference. -/
structure TradeClock where
  push_ms : Int
  analyze_ms : Int
  alert_ms : Int
  elapsed_ns : Int

/-- The band test `change_percent >= threshold_min && change_percent <= threshold_max`. -/
def in_band (config : Config) (change_percent : ℚ) : Bool :=
  decide (change_percent ≥ config.threshold_min) && decide (change_percent ≤ config.threshold_max)

/-- Get-or-create and append of `process_trade` (lines 35-69): the buffer of the trade's
symbol after the push. -/
def pushed_buffer (m : StockMonitor) (clk : TradeClock) (trade : TradeData) : StockBuffer :=
  let buffer :=
    match UMap.find m.stock_buffers_ trade.symbol with
    | some b => b
    | none => StockBuffer.new m.config_.buffer_size
  { buffer := buffer.buffer.push ⟨trade.price, trade.timestamp, trade.volume⟩
    last_update := toUInt64 clk.push_ms
    last_price := trade.price }

/-- The analysis step of `process_trade` (lines 71-81). -/
def trade_analysis (m : StockMonitor) (clk : TradeClock) (trade : TradeData) : Option Analysis :=
  analyze_buffer_simd (pushed_buffer m clk trade) clk.analyze_ms

/-- The local `in_threshold` of `process_trade`. -/
def trade_in_threshold (m : StockMonitor) (clk : TradeClock) (trade : TradeData) : Bool :=
  match trade_analysis m clk trade with
  | some a => in_band m.config_ a.change_percent
  | none => false

/-- The local `alert` of `process_trade` (lines 85-95). -/
def make_alert (clk : TradeClock) (trade : TradeData) (a : Analysis) : AlertData :=
  { symbol := trade.symbol
    change_percent := a.change_percent
    current_price := a.current_price
    min_price := a.min_price
    max_price := a.max_price
    volume := trade.volume
    timestamp := toUInt64 clk.alert_ms
    webull_url := generate_webull_link trade.symbol trade.exchange }

/-- The method `StockMonitor::process_trade`: the monitor after the call and the snapshots
the alert callback was invoked with during the call. -/
def process_trade (m : StockMonitor) (clk : TradeClock) (trade : TradeData) :
    StockMonitor × List AlertData :=
  let stock_buffers := UMap.assign m.stock_buffers_ trade.symbol (pushed_buffer m clk trade)
  let r : List (String × AlertData) × List AlertData :=
    match trade_analysis m clk trade with
    | none => (UMap.erase m.threshold_stocks_ trade.symbol, [])
    | some a =>
      if in_band m.config_ a.change_percent then
        let alert := make_alert clk trade a
        let it := UMap.find m.threshold_stocks_ trade.symbol
        let is_new := it.isNone
        let significant_change :=
          match it with
          | some stored => decide (|stored.change_percent - a.change_percent| > 1 / 10)
          | none => false
        if is_new || significant_change then
          (UMap.assign m.threshold_stocks_ trade.symbol alert,
            if m.alert_callback_ then [alert] else [])
        else (m.threshold_stocks_, [])
      else (UMap.erase m.threshold_stocks_ trade.symbol, [])
  ({ m with
      stock_buffers_ := stock_buffers
      threshold_stocks_ := r.1
      total_updates_ := addUInt64 m.total_updates_ 1
      total_processing_time_ns_ := addUInt64 m.total_processing_time_ns_ (toUInt64 clk.elapsed_ns)
      updates_last_second_ := addUInt64 m.updates_last_second_ 1 }, r.2)

/-- The synthetic trade built by `process_quote`. -/
def quote_to_trade (quote : QuoteData) : TradeData :=
  { symbol := quote.symbol
    price := (quote.bid_price + quote.ask_price) / 2
    volume := addUInt64 quote.bid_size quote.ask_size
    timestamp := quote.timestamp
    exchange := quote.exchange }

/-- The method `StockMonitor::process_quote`. -/
def process_quote (m : StockMonitor) (clk : TradeClock) (quote : QuoteData) :
    StockMonitor × List AlertData :=
  process_trade m clk (quote_to_trade quote)

/-- The symbols `cleanup_inactive_stocks` collects in `to_remove`: an unsigned comparison
of `last_update` with `now - 3600000`. -/
def inactive_symbols (m : StockMonitor) (now : Int) : List String :=
  (m.stock_buffers_.filter
    (fun e => decide (e.2.last_update < toUInt64 (now - 3600000)))).map Prod.fst

/-- The method `StockMonitor::cleanup_inactive_stocks` (one reaper tick at wall clock `now`). -/
def cleanup_inactive_stocks (m : StockMonitor) (now : Int) : StockMonitor :=
  let to_remove := inactive_symbols m now
  if to_remove.isEmpty then m
  else
    { m with
      stock_buffers_ := to_remove.foldl UMap.erase m.stock_buffers_
      threshold_stocks_ := to_remove.foldl UMap.erase m.threshold_stocks_ }

/-- The method `StockMonitor::get_active_stocks`: the stored snapshots in iteration order,
sorted with the comparator `a.change_percent > b.change_percent` (an insertion sort stands
for `std::sort`). -/
def get_active_stocks (m : StockMonitor) : List AlertData :=
  (m.threshold_stocks_.map Prod.snd).insertionSort (fun a b => a.change_percent > b.change_percent)

/-! ## StockMonitor.cpp: statistics and batch changes -/

/-- The struct `StockMonitor::Stats`. -/
structure Stats where
  total_stocks : Nat
  threshold_stocks : Nat
  updates_per_second : Nat
  avg_processing_time_us : ℚ
  memory_usage_bytes : Nat
  deriving DecidableEq

/-- Multiplication on `size_t`. -/
def mulUInt64 (a b : Nat) : Nat := (a * b) % 18446744073709551616

/-- The method `StockMonitor::get_stats`: the snapshot, and the monitor after the call
(`updates_last_second_.exchange(0)` resets the counter). The two `sizeof` values of the
memory estimate are parameters. The average is an integer division of the two counters
followed by a division by `1000.0`. -/
def get_stats (sizeof_StockBuffer sizeof_PricePoint : Nat) (m : StockMonitor) :
    Stats × StockMonitor :=
  let total_stocks := m.stock_buffers_.length
  let stats : Stats :=
    { total_stocks := total_stocks
      threshold_stocks := m.threshold_stocks_.length
      updates_per_second := m.updates_last_second_
      avg_processing_time_us :=
        if m.total_updates_ > 0 then
          ((m.total_processing_time_ns_ / m.total_updates_ : Nat) : ℚ) / 1000
        else 0
      memory_usage_bytes :=
        mulUInt64 total_stocks
          (addUInt64 sizeof_StockBuffer (mulUInt64 m.config_.buffer_size sizeof_PricePoint)) }
  (stats, { m with updates_last_second_ := 0 })

/-- The scalar loop `for (; i < count; ++i)` of `batch_calculate_changes`. The division is
the field division of `ℚ`; a zero divisor, on which IEEE division yields an infinity or a
NaN, is outside the idealisation of `double`. -/
def batch_tail : List ℚ → List ℚ → List ℚ
  | c :: cs, m :: ms => ((c - m) / m) * 100 :: batch_tail cs ms
  | _, _ => []

/-- The four-lane loop of `batch_calculate_changes` followed by the scalar loop: lane-wise
`_mm256_sub_pd`, `_mm256_div_pd` and `_mm256_mul_pd` with `100.0` while at least four
elements remain. The source reads `min_prices[i]` for every `i < current_prices.size()`, so
`min_prices` must be at least as long as `current_prices`. -/
def batch_loop : List ℚ → List ℚ → List ℚ
  | c0 :: c1 :: c2 :: c3 :: cs, m0 :: m1 :: m2 :: m3 :: ms =>
    ((c0 - m0) / m0) * 100 :: ((c1 - m1) / m1) * 100 :: ((c2 - m2) / m2) * 100 ::
      ((c3 - m3) / m3) * 100 :: batch_loop cs ms
  | cs, ms => batch_tail cs ms

/-- The function `PriceCalculator::batch_calculate_changes`: the final `changes_out`. -/
def batch_calculate_changes (current_prices min_prices : List ℚ) : List ℚ :=
  batch_loop current_prices min_prices

/-! ## Sequential runs -/

/-- The calls a run is made of: `process_trade`, `process_quote`, one tick of the cleanup
thread, and `set_alert_callback`. -/
inductive Event where
  | trade (clk : TradeClock) (t : TradeData)
  | quote (clk : TradeClock) (q : QuoteData)
  | reap (now : Int)
  | set_callback

/-- One call: the monitor after it and the callback invocations so far. -/
def step (st : StockMonitor × List AlertData) : Event → StockMonitor × List AlertData
  | Event.trade clk t => ((process_trade st.1 clk t).1, st.2 ++ (process_trade st.1 clk t).2)
  | Event.quote clk q => ((process_quote st.1 clk q).1, st.2 ++ (process_quote st.1 clk q).2)
  | Event.reap now => (cleanup_inactive_stocks st.1 now, st.2)
  | Event.set_callback => (st.1.set_alert_callback, st.2)

/-- A sequential run from monitor `m`. -/
def run (m : StockMonitor) (evs : List Event) : StockMonitor × List AlertData :=
  evs.foldl step (m, [])



/-- The hysteresis test of `process_trade` (`is_new || significant_change`): the symbol is
absent from the threshold table, or the stored `change_percent` differs from the new one by
more than `0.1`. -/
def alert_due (m : StockMonitor) (symbol : String) (change_percent : ℚ) : Prop :=
  UMap.find m.threshold_stocks_ symbol = none ∨
    ∃ stored, UMap.find m.threshold_stocks_ symbol = some stored ∧
      |stored.change_percent - change_percent| > 1 / 10

/-- Every stored snapshot carries the symbol it is stored under. -/
def KeyInv (m : StockMonitor) : Prop :=
  ∀ e ∈ m.threshold_stocks_, e.2.symbol = e.1

/-- Every registered buffer is a well-formed ring of the configured capacity. -/
def BufInv (cfg : Config) (m : StockMonitor) : Prop :=
  m.config_ = cfg ∧
    ∀ e ∈ m.stock_buffers_, e.2.buffer.WF ∧ e.2.buffer.capacity_ = cfg.buffer_size

/-- Bookkeeping for "the most recent completed analysis for `sym`": next to the monitor,
whether the last `process_trade` / `process_quote` for `sym` computed `in_threshold = true`
(`false` before the first one). With `forget_on_reap` the record is also reset to `false`
when a reaper tick collects `sym` for removal. -/
def track_analysis (forget_on_reap : Bool) (sym : String) (st : StockMonitor × Bool)
    (ev : Event) : StockMonitor × Bool :=
  ((step (st.1, []) ev).1,
    match ev with
    | Event.trade clk t => if t.symbol = sym then trade_in_threshold st.1 clk t else st.2
    | Event.quote clk q =>
      if q.symbol = sym then trade_in_threshold st.1 clk (quote_to_trade q) else st.2
    | Event.reap now =>
      if forget_on_reap && decide (sym ∈ inactive_symbols st.1 now) then false else st.2
    | Event.set_callback => st.2)

/-- Whether the most recent completed analysis for `sym` in the run `evs` from `m` returned
a `change_percent` inside the band. -/
def last_analysis_in_band (forget_on_reap : Bool) (m : StockMonitor) (evs : List Event)
    (sym : String) : Bool :=
  (evs.foldl (track_analysis forget_on_reap sym) (m, false)).2

/-- The point `process_trade` appends for a trade. -/
def trade_point (trade : TradeData) : PricePoint := ⟨trade.price, trade.timestamp, trade.volume⟩

/-- The buffered points of a symbol, oldest first (`get_all` of its registered buffer);
empty when the symbol is not registered. -/
def symbol_points (m : StockMonitor) (symbol : String) : List PricePoint :=
  match UMap.find m.stock_buffers_ symbol with
  | some b => b.buffer.get_all
  | none => []

/-- The registry holds at most one entry per symbol. -/
def NodupKeys (m : StockMonitor) : Prop := (UMap.keys m.stock_buffers_).Nodup

/-- Every symbol of the threshold table is registered. -/
def SubInv (m : StockMonitor) : Prop :=
  ∀ e ∈ m.threshold_stocks_, (UMap.find m.stock_buffers_ e.1).isSome = true

/-- The exchange slug of the deep link as the specification words it: the lower-case name
for the four known exchanges, `nasdaq` for every other string. -/
def exchange_slug (exchange : String) : String :=
  if exchange = "NASDAQ" then "nasdaq"
  else if exchange = "NYSE" then "nyse"
  else if exchange = "AMEX" then "amex"
  else if exchange = "ARCA" then "arca"
  else "nasdaq"

/-- The invariant of the threshold table: every stored snapshot has its `change_percent`
inside `[threshold_min, threshold_max]`, carries the symbol it is stored under, and that
symbol is registered. -/
def ThrInv (m : StockMonitor) : Prop :=
  ∀ e ∈ m.threshold_stocks_,
    (m.config_.threshold_min ≤ e.2.change_percent ∧
        e.2.change_percent ≤ m.config_.threshold_max) ∧
      e.2.symbol = e.1 ∧ (UMap.find m.stock_buffers_ e.1).isSome = true

/-! ## The end-to-end scenarios of the specification -/

/-- A call whose clock reads all return `t` (and that takes 1000 ns). -/
def S_clock (t : Int) : TradeClock := ⟨t, t, t, 1000⟩

/-- A trade of symbol `AAPL` with volume 1 on `NASDAQ`. -/
def S_trade (price : ℚ) (timestamp : Nat) : TradeData := ⟨"AAPL", price, 1, timestamp, "NASDAQ"⟩

/-- A trade event of the scenarios, fed at wall-clock time equal to its event timestamp. -/
def S_event (price : ℚ) (timestamp : Nat) : Event :=
  Event.trade (S_clock timestamp) (S_trade price timestamp)

/-- S1 before its last trade: a callback is installed, then ten trades at price 100 with
timestamps `t, t+1s, …, t+9s`, for `t = 1000000`. -/
def S1_prefix : List Event :=
  Event.set_callback :: (List.range 10).map (fun i => S_event 100 (1000000 + 1000 * i))

/-- Scenario S1: the ten trades at 100, then one trade at 110 at `t+10s`. -/
def S1 : List Event := S1_prefix ++ [S_event 110 1010000]

/-- The ten opening trades of S1 with the clock reads of their calls. -/
def S1_trades : List (TradeClock × TradeData) :=
  (List.range 10).map (fun (i : Nat) =>
    (S_clock (Int.ofNat (1000000 + 1000 * i)), S_trade 100 (1000000 + 1000 * i)))

/-- Five points with timestamps `t, …, t+4s` (`t = 1000000`), pushed on a fresh buffer of
capacity 120. -/
def five_point_buffer : StockBuffer :=
  { buffer := ((List.range 5).map (fun i => (⟨100, 1000000 + 1000 * i, 1⟩ : PricePoint))).foldl
      CircularBuffer.push (CircularBuffer.new 120)
    last_update := 1004000
    last_price := 100 }

/-- A trade event of symbol `symbol` (volume 1, `NASDAQ`) fed at wall-clock time equal to
its event timestamp. -/
def T_event (symbol : String) (price : ℚ) (timestamp : Nat) : Event :=
  Event.trade (S_clock timestamp) ⟨symbol, price, 1, timestamp, "NASDAQ"⟩

/-- Scenario S1 played for symbol `A` and then, with the same prices and times, for `B`. -/
def tie_run : List Event :=
  ((List.range 10).map (fun i => T_event "A" 100 (1000000 + 1000 * i)) ++
      [T_event "A" 110 1010000]) ++
    ((List.range 10).map (fun i => T_event "B" 100 (1000000 + 1000 * i)) ++
      [T_event "B" 110 1010000])

/-- The quote of scenario S5. -/
def S5_quote : QuoteData := ⟨"AAPL", 100, 10, 102, 20, 1000000, "NASDAQ"⟩

/-- A configuration with `max_stocks = 1`. -/
def one_stock_config : Config := { max_stocks := 1 }

/-- The malformed trade of the checks below: empty symbol and negative price. -/
def malformed_trade : TradeData := ⟨"", -1, 1, 1000000, "NASDAQ"⟩

/-- Scenario S1 played with the empty string as the symbol. -/
def empty_symbol_run : List Event :=
  Event.set_callback :: ((List.range 10).map (fun i => T_event "" 100 (1000000 + 1000 * i)) ++
    [T_event "" 110 1010000])

/-- Two `process_trade` calls that took 1000 ns and 501 ns. -/
def stats_run : List Event :=
  [Event.trade ⟨1000000, 1000000, 1000000, 1000⟩ (S_trade 100 1000000),
    Event.trade ⟨1001000, 1001000, 1001000, 501⟩ (S_trade 100 1001000)]

/-- A buffer of capacity 121 holding 121 points with timestamps `t, t+1, …` (`t = 1000000`):
the oldest at price 50, the others at price 100. -/
def wide_buffer : StockBuffer :=
  { buffer := ((List.range 121).map
        (fun i => (⟨if i = 0 then 50 else 100, 1000000 + i, 1⟩ : PricePoint))).foldl
      CircularBuffer.push (CircularBuffer.new 121)
    last_update := 1000200
    last_price := 100 }

/-- Eight in-window trades at price 100, one at 110, then a trade at price 1 whose event
timestamp 0 lies far outside the window (an out-of-order event), all fed within ten
seconds. -/
def stale_run : List Event :=
  Event.set_callback :: ((List.range 8).map (fun i => S_event 100 (1000000 + 1000 * i)) ++
    [S_event 110 1008000, Event.trade (S_clock 1009000) (S_trade 1 0)])

/-! # Theorems -/

/-! ## Lists and modular arithmetic -/

theorem getD_set_eq {α : Type} (l : List α) (t j : Nat) (x d : α) (ht : t < l.length) :
    (l.set t x).getD j d = if j = t then x else l.getD j d := by
  simp only [List.getD_eq_getElem?_getD, List.getElem?_set]
  by_cases h : j = t
  · subst h
    simp [ht]
  · have h2 : ¬ t = j := fun e => h e.symm
    simp [h, h2]

theorem mod_add_inj {C h i j : Nat} (hi : i < C) (hj : j < C)
    (e : (h + i) % C = (h + j) % C) : i = j := by
  have e1 : i ≡ j [MOD C] := Nat.ModEq.add_left_cancel' h e
  have e2 : i % C = j % C := e1
  rwa [Nat.mod_eq_of_lt hi, Nat.mod_eq_of_lt hj] at e2

theorem lastN_length {α : Type} (k : Nat) (l : List α) : (lastN k l).length = min k l.length := by
  simp only [lastN, List.length_drop]
  omega

theorem lastN_of_length_le {α : Type} (k : Nat) (l : List α) (h : l.length ≤ k) :
    lastN k l = l := by
  simp [lastN, Nat.sub_eq_zero_of_le h]

theorem lastN_append_left {α : Type} (k : Nat) (a r : List α) (h : k ≤ r.length) :
    lastN k (a ++ r) = lastN k r := by
  simp only [lastN, List.length_append]
  have e : a.length + r.length - k = a.length + (r.length - k) := by omega
  rw [e, List.drop_append]

theorem lastN_drop_append {α : Type} (k j : Nat) (l ys : List α) (h : j + k ≤ l.length + ys.length)
    (hj : j ≤ l.length) : lastN k (l.drop j ++ ys) = lastN k (l ++ ys) := by
  conv_rhs => rw [← List.take_append_drop j l, List.append_assoc]
  rw [lastN_append_left k (List.take j l) (List.drop j l ++ ys)]
  simp only [List.length_append, List.length_drop]
  omega

theorem lastN_lastN {α : Type} (a c : Nat) (l : List α) :
    lastN a (lastN c l) = lastN (min a c) l := by
  simp only [lastN, List.length_drop, List.drop_drop]
  congr 1
  omega

/-! ## CircularBuffer -/

namespace CircularBuffer

variable {α : Type} [Inhabited α]

theorem get_all_loop_eq (b : CircularBuffer α) (hC : 0 < b.capacity_) :
    ∀ (k cur : Nat) (res : List α), cur < b.capacity_ →
      get_all_loop b k cur res =
        res ++ (List.range k).map (fun i => b.buffer_.getD ((cur + i) % b.capacity_) default)
  | 0, cur, res, _ => by simp [get_all_loop]
  | k + 1, cur, res, h => by
    rw [get_all_loop, get_all_loop_eq b hC k _ _ (Nat.mod_lt _ hC), List.range_succ_eq_map]
    simp only [List.map_cons, List.map_map, List.append_assoc, List.singleton_append,
      Nat.add_zero, Nat.mod_eq_of_lt h]
    congr 2
    apply List.map_congr_left
    intro i _
    simp only [Function.comp_apply, Nat.mod_add_mod]
    congr 2
    omega

theorem get_all_eq_contents (b : CircularBuffer α) (hb : b.WF) : b.get_all = b.contents := by
  simp [get_all, contents, get_all_loop_eq b hb.cap_pos _ _ _ hb.head_lt]

theorem contents_length (b : CircularBuffer α) : b.contents.length = b.size_ := by
  simp [contents]

theorem WF_new (C : Nat) (hC : 0 < C) : (new C : CircularBuffer α).WF :=
  ⟨hC, by simp [new], hC, Nat.zero_le _, by simp [new]⟩

theorem WF_clear (b : CircularBuffer α) (hb : b.WF) : b.clear.WF :=
  ⟨hb.cap_pos, hb.buf_len, hb.cap_pos, Nat.zero_le _, by simp [clear]⟩

theorem tail_eq_head_of_full (b : CircularBuffer α) (hb : b.WF) (hf : b.size_ = b.capacity_) :
    b.tail_ = b.head_ := by
  rw [hb.tail_eq, hf, Nat.add_mod_right, Nat.mod_eq_of_lt hb.head_lt]

theorem WF_push (b : CircularBuffer α) (x : α) (hb : b.WF) : (b.push x).WF := by
  by_cases hf : b.size_ = b.capacity_
  · refine ⟨?_, ?_, ?_, ?_, ?_⟩ <;> simp only [push, hf, if_true]
    · exact hb.cap_pos
    · simpa using hb.buf_len
    · exact Nat.mod_lt _ hb.cap_pos
    · exact le_refl _
    · rw [tail_eq_head_of_full b hb hf, Nat.add_mod_right, Nat.mod_mod]
  · refine ⟨?_, ?_, ?_, ?_, ?_⟩ <;> simp only [push, hf, if_false]
    · exact hb.cap_pos
    · simpa using hb.buf_len
    · exact hb.head_lt
    · have := hb.size_le
      omega
    · rw [hb.tail_eq, Nat.mod_add_mod, Nat.add_assoc]

theorem capacity_push (b : CircularBuffer α) (x : α) : (b.push x).capacity_ = b.capacity_ := by
  unfold push
  split <;> rfl

theorem tail_lt (b : CircularBuffer α) (hb : b.WF) : b.tail_ < b.capacity_ := by
  rw [hb.tail_eq]
  exact Nat.mod_lt _ hb.cap_pos

theorem contents_push_not_full (b : CircularBuffer α) (x : α) (hb : b.WF)
    (hf : b.size_ ≠ b.capacity_) : (b.push x).contents = b.contents ++ [x] := by
  have hlt : b.size_ < b.capacity_ := lt_of_le_of_ne hb.size_le hf
  have ht : b.tail_ < b.buffer_.length := by
    rw [hb.buf_len]
    exact tail_lt b hb
  simp only [contents, push, hf, if_false, List.range_succ, List.map_append, List.map_cons,
    List.map_nil]
  congr 1
  · apply List.map_congr_left
    intro i hi
    rw [List.mem_range] at hi
    rw [getD_set_eq _ _ _ _ _ ht, if_neg]
    intro e
    rw [hb.tail_eq] at e
    have := mod_add_inj (lt_trans hi hlt) hlt e
    omega
  · rw [getD_set_eq _ _ _ _ _ ht, if_pos hb.tail_eq.symm]

theorem contents_push_full (b : CircularBuffer α) (x : α) (hb : b.WF)
    (hf : b.size_ = b.capacity_) : (b.push x).contents = b.contents.tail ++ [x] := by
  have hth : b.tail_ = b.head_ := tail_eq_head_of_full b hb hf
  have ht : b.head_ < b.buffer_.length := by
    rw [hb.buf_len]
    exact hb.head_lt
  obtain ⟨c, hc⟩ : ∃ c, b.capacity_ = c + 1 := ⟨b.capacity_ - 1, by have := hb.cap_pos; omega⟩
  simp only [contents, push, hf, if_true, hth]
  rw [hc]
  conv_lhs => rw [List.range_succ]
  conv_rhs => rw [List.range_succ_eq_map]
  simp only [List.map_append, List.map_cons, List.map_nil, List.tail_cons, List.map_map]
  congr 1
  · apply List.map_congr_left
    intro i hi
    rw [List.mem_range] at hi
    rw [getD_set_eq _ _ _ _ _ ht, Nat.mod_add_mod, Function.comp_apply, Nat.add_assoc,
      Nat.add_comm 1 i, if_neg]
    intro e
    have e2 : (b.head_ + (i + 1)) % (c + 1) = (b.head_ + 0) % (c + 1) := by
      rw [e, Nat.add_zero, ← hc, Nat.mod_eq_of_lt hb.head_lt]
    have := mod_add_inj (by omega) (by omega) e2
    omega
  · rw [getD_set_eq _ _ _ _ _ ht, if_pos]
    rw [Nat.mod_add_mod, Nat.add_assoc, Nat.add_comm 1 c, Nat.add_mod_right, ← hc,
      Nat.mod_eq_of_lt hb.head_lt]

theorem contents_push (b : CircularBuffer α) (x : α) (hb : b.WF) :
    (b.push x).contents = lastN b.capacity_ (b.contents ++ [x]) := by
  by_cases hf : b.size_ = b.capacity_
  · rw [contents_push_full b x hb hf]
    have hl : b.contents.length = b.capacity_ := by rw [contents_length, hf]
    cases hcs : b.contents with
    | nil =>
      rw [hcs] at hl
      have := hb.cap_pos
      simp at hl
      omega
    | cons y ys =>
      rw [hcs] at hl
      simp only [List.length_cons] at hl
      simp [lastN, ← hl]
  · rw [contents_push_not_full b x hb hf, lastN_of_length_le]
    have := hb.size_le
    simp only [List.length_append, contents_length, List.length_singleton]
    omega

theorem lastN_lastN_append {β : Type} (k : Nat) (l ys : List β) :
    lastN k (lastN k l ++ ys) = lastN k (l ++ ys) := by
  by_cases h : l.length ≤ k
  · rw [lastN_of_length_le k l h]
  · unfold lastN
    exact lastN_drop_append k (l.length - k) l ys (by omega) (by omega)

theorem WF_pushes (xs : List α) : ∀ (b : CircularBuffer α), b.WF → (xs.foldl push b).WF := by
  induction xs with
  | nil => exact fun b hb => hb
  | cons x xs ih => exact fun b hb => ih (b.push x) (WF_push b x hb)

theorem contents_pushes (xs : List α) :
    ∀ (b : CircularBuffer α), b.WF →
      (xs.foldl push b).contents = lastN b.capacity_ (b.contents ++ xs) := by
  induction xs with
  | nil =>
    intro b hb
    rw [List.foldl_nil, List.append_nil, lastN_of_length_le]
    rw [contents_length]
    exact hb.size_le
  | cons x xs ih =>
    intro b hb
    rw [List.foldl_cons, ih (b.push x) (WF_push b x hb), contents_push b x hb, capacity_push,
      lastN_lastN_append, List.append_assoc, List.singleton_append]

theorem get_recent_eq (b : CircularBuffer α) (hb : b.WF) (n : Nat) :
    b.get_recent n = lastN n b.contents := by
  have hC := hb.cap_pos
  have hs := hb.size_le
  apply List.ext_getElem
  · simp only [get_recent, lastN_length, contents_length, List.length_map, List.length_range]
  · intro i h1 h2
    have hi : i < min n b.size_ := by simpa [get_recent] using h1
    simp only [get_recent, lastN, contents, List.getElem_map, List.getElem_range,
      List.getElem_drop, List.length_map, List.length_range]
    congr 1
    rw [Nat.mod_add_mod, hb.tail_eq]
    have e1 : (b.head_ + b.size_) % b.capacity_ + b.capacity_ - min n b.size_ + i =
        (b.head_ + b.size_) % b.capacity_ + (b.capacity_ - min n b.size_ + i) := by omega
    have e2 : b.head_ + b.size_ + (b.capacity_ - min n b.size_ + i) =
        b.head_ + (b.size_ - n + i) + b.capacity_ := by omega
    rw [e1, Nat.mod_add_mod, e2, Nat.add_mod_right]

theorem WF_applyOp (b : CircularBuffer α) (hb : b.WF) (op : Op α) : (b.applyOp op).WF := by
  cases op with
  | push item => exact WF_push b item hb
  | clear => exact WF_clear b hb

theorem capacity_applyOp (b : CircularBuffer α) (op : Op α) :
    (b.applyOp op).capacity_ = b.capacity_ := by
  cases op with
  | push item => exact capacity_push b item
  | clear => rfl

theorem reachable_WF (ops : List (Op α)) :
    ∀ (b : CircularBuffer α), b.WF →
      (ops.foldl applyOp b).WF ∧ (ops.foldl applyOp b).capacity_ = b.capacity_ := by
  induction ops with
  | nil => exact fun b hb => ⟨hb, rfl⟩
  | cons op ops ih =>
    intro b hb
    have h := ih (b.applyOp op) (WF_applyOp b hb op)
    exact ⟨h.1, h.2.trans (capacity_applyOp b op)⟩

/-- C1. For every capacity `C > 0`, every sequence `xs` pushed onto a freshly constructed
buffer and every `n`, `get_recent n` is the list of the last `min n (min |xs| C)` elements
of `xs`, in push order. -/
theorem C1_get_recent_last_pushed (C : Nat) (hC : 0 < C) (xs : List α) (n : Nat) :
    (xs.foldl push (new C)).get_recent n = xs.drop (xs.length - min n (min xs.length C)) := by
  have hw : (new C : CircularBuffer α).WF := WF_new C hC
  rw [get_recent_eq _ (WF_pushes xs _ hw), contents_pushes xs _ hw]
  have e : (new C : CircularBuffer α).contents = [] := by simp [contents, new]
  have c : (new C : CircularBuffer α).capacity_ = C := rfl
  rw [e, c, List.nil_append, lastN_lastN]
  unfold lastN
  congr 1
  omega

/-- Witness of C1: capacity 3, five pushes, the two most recent. -/
theorem C1_get_recent_last_pushed_witness :
    (([1, 2, 3, 4, 5] : List Nat).foldl push (new 3)).get_recent 2 = [4, 5] :=
  C1_get_recent_last_pushed 3 (by decide) [1, 2, 3, 4, 5] 2

/-- C2. For every buffer `b` of capacity `C > 0` (any buffer obtained from the constructor
by `push` and `clear`) and every item `x`: if `b` is not full, `push x` makes `get_all` the
old `get_all` followed by `x` and `size` one larger; if `b` is full, `push x` makes
`get_all` the old `get_all` without its first element followed by `x`, and `size` stays
`C`. -/
theorem C2_push_get_all (C : Nat) (hC : 0 < C) (ops : List (Op α)) (x : α) :
    let b : CircularBuffer α := ops.foldl applyOp (new C)
    (b.full = false →
      (b.push x).get_all = b.get_all ++ [x] ∧ (b.push x).size = b.size + 1) ∧
    (b.full = true →
      (b.push x).get_all = b.get_all.tail ++ [x] ∧ (b.push x).size = C ∧ b.size = C) := by
  intro b
  have hr := reachable_WF ops (new C : CircularBuffer α) (WF_new C hC)
  have hb : b.WF := hr.1
  have hcap : b.capacity_ = C := hr.2
  have hp : (b.push x).WF := WF_push b x hb
  constructor
  · intro hf
    have hne : b.size_ ≠ b.capacity_ := by simpa [full] using hf
    refine ⟨?_, ?_⟩
    · rw [get_all_eq_contents _ hp, get_all_eq_contents _ hb, contents_push_not_full b x hb hne]
    · simp [size, push, hne]
  · intro hf
    have he : b.size_ = b.capacity_ := by simpa [full] using hf
    refine ⟨?_, ?_, ?_⟩
    · rw [get_all_eq_contents _ hp, get_all_eq_contents _ hb, contents_push_full b x hb he]
    · simp [size, push, he, hcap]
    · simp [size, he, hcap]

/-- Witness of C2: a full buffer of capacity 2 that was cleared once before. -/
theorem C2_push_get_all_witness :
    (((([Op.push 7, Op.clear, Op.push 1, Op.push 2] : List (Op Nat)).foldl applyOp
        (new 2)).push 3).get_all = [2, 3]) := by
  have h := (C2_push_get_all 2 (by decide)
    ([Op.push 7, Op.clear, Op.push 1, Op.push 2] : List (Op Nat)) 3).2 (by decide)
  exact h.1.trans (by decide)

end CircularBuffer

/-! ## PriceCalculator -/

section PriceCalculator

variable {α : Type} [LinearOrder α]

theorem minpd_eq (a b : α) : minpd a b = min a b := by
  unfold minpd
  rcases lt_trichotomy a b with h | h | h
  · rw [if_pos h, min_eq_left h.le]
  · subst h
    simp
  · rw [if_neg (not_lt.mpr h.le), min_eq_right h.le]

theorem maxpd_eq (a b : α) : maxpd a b = max a b := by
  unfold maxpd
  rcases lt_trichotomy a b with h | h | h
  · rw [if_neg (not_lt.mpr h.le), max_eq_right h.le]
  · subst h
    simp
  · rw [if_pos h, max_eq_left h.le]

theorem std_min_eq (a b : α) : std_min a b = min a b := by
  unfold std_min
  by_cases h : b < a
  · rw [if_pos h, min_eq_right h.le]
  · rw [if_neg h, min_eq_left (not_lt.mp h)]

theorem std_max_eq (a b : α) : std_max a b = max a b := by
  unfold std_max
  by_cases h : a < b
  · rw [if_pos h, max_eq_right h.le]
  · rw [if_neg h, max_eq_left (not_lt.mp h)]

theorem min_element4_eq (v : M256d α) :
    min_element4 v = min (min (min v.lane0 v.lane1) v.lane2) v.lane3 := by
  have key : ∀ a b : α, (if b < a then b else a) = min a b := std_min_eq
  simp only [min_element4, key]

theorem max_element4_eq (v : M256d α) :
    max_element4 v = max (max (max v.lane0 v.lane1) v.lane2) v.lane3 := by
  have key : ∀ a b : α, (if a < b then b else a) = max a b := std_max_eq
  simp only [max_element4, key]

theorem scalar_tail_eq : ∀ (l : List α) (mn mx : α),
    scalar_tail l mn mx = (l.foldl min mn, l.foldl max mx)
  | [], mn, mx => rfl
  | p :: rest, mn, mx => by
    rw [scalar_tail, scalar_tail_eq rest, std_min_eq, std_max_eq, List.foldl_cons,
      List.foldl_cons]

theorem avx2_loop_eq : ∀ (l : List α) (mn mx : M256d α),
    scalar_tail (avx2_loop l mn mx).2.2 (min_element4 (avx2_loop l mn mx).1)
        (max_element4 (avx2_loop l mn mx).2.1) =
      (l.foldl min (min_element4 mn), l.foldl max (max_element4 mx))
  | p0 :: p1 :: p2 :: p3 :: rest, mn, mx => by
    rw [avx2_loop, avx2_loop_eq rest]
    simp only [List.foldl_cons, min_element4_eq, max_element4_eq, mm256_min_pd, mm256_max_pd,
      minpd_eq, maxpd_eq]
    congr 2
    · simp only [min_assoc, min_comm, min_left_comm]
    · simp only [max_assoc, max_comm, max_left_comm]
  | [], mn, mx => by
    rw [avx2_loop, scalar_tail_eq]
    intro _ _ _ _ _ e
    cases e
  | [_], mn, mx => by
    rw [avx2_loop, scalar_tail_eq]
    intro _ _ _ _ _ e
    cases e
  | [_, _], mn, mx => by
    rw [avx2_loop, scalar_tail_eq]
    intro _ _ _ _ _ e
    cases e
  | [_, _, _], mn, mx => by
    rw [avx2_loop, scalar_tail_eq]
    intro _ _ _ _ _ e
    cases e

theorem foldl_pair_eq (l : List α) : ∀ (a b : α),
    l.foldl (fun acc x => (min acc.1 x, max acc.2 x)) (a, b) = (l.foldl min a, l.foldl max b) := by
  induction l with
  | nil => exact fun a b => rfl
  | cons x xs ih => exact fun a b => by rw [List.foldl_cons, ih, List.foldl_cons, List.foldl_cons]

theorem calculate_min_max_avx2_cons (p : α) (rest : List α) :
    calculate_min_max_avx2 (p :: rest) = some (rest.foldl min p, rest.foldl max p) := by
  unfold calculate_min_max_avx2
  simp only []
  rw [avx2_loop_eq]
  simp only [List.foldl_cons, min_element4_eq, max_element4_eq, mm256_set1_pd, min_self,
    max_self]

theorem foldl_min_spec (l : List α) : ∀ a : α,
    (l.foldl min a ∈ a :: l) ∧ l.foldl min a ≤ a ∧ ∀ x ∈ l, l.foldl min a ≤ x := by
  induction l with
  | nil => exact fun a => ⟨List.mem_singleton_self a, le_refl a, fun x hx => by cases hx⟩
  | cons y ys ih =>
    intro a
    obtain ⟨h1, h2, h3⟩ := ih (min a y)
    refine ⟨?_, h2.trans (min_le_left a y), ?_⟩
    · rw [List.foldl_cons]
      rcases List.mem_cons.mp h1 with e | e
      · rw [e]
        rcases min_choice a y with c | c <;> rw [c] <;> simp
      · exact List.mem_cons_of_mem _ (List.mem_cons_of_mem _ e)
    · intro x hx
      rcases List.mem_cons.mp hx with e | e
      · rw [e]
        exact h2.trans (min_le_right a y)
      · exact h3 x e

theorem foldl_max_spec (l : List α) : ∀ a : α,
    (l.foldl max a ∈ a :: l) ∧ a ≤ l.foldl max a ∧ ∀ x ∈ l, x ≤ l.foldl max a := by
  induction l with
  | nil => exact fun a => ⟨List.mem_singleton_self a, le_refl a, fun x hx => by cases hx⟩
  | cons y ys ih =>
    intro a
    obtain ⟨h1, h2, h3⟩ := ih (max a y)
    refine ⟨?_, (le_max_left a y).trans h2, ?_⟩
    · rw [List.foldl_cons]
      rcases List.mem_cons.mp h1 with e | e
      · rw [e]
        rcases max_choice a y with c | c <;> rw [c] <;> simp
      · exact List.mem_cons_of_mem _ (List.mem_cons_of_mem _ e)
    · intro x hx
      rcases List.mem_cons.mp hx with e | e
      · rw [e]
        exact (le_max_right a y).trans h2
      · exact h3 x e

/-- C4. For every non-empty price sequence (any length, also below four or not a multiple
of four) `calculate_min_max_avx2` writes a pair `(mn, mx)` that is also the result of the
scalar left-to-right reduction, and `mn` / `mx` are the least / greatest price of the
sequence. Prices are elements of a linear order. -/
theorem C4_min_max_avx2_exact (prices : List α) (h : prices ≠ []) :
    ∃ mn mx, calculate_min_max_avx2 prices = some (mn, mx) ∧
      scalar_min_max prices = some (mn, mx) ∧
      mn ∈ prices ∧ mx ∈ prices ∧ ∀ x ∈ prices, mn ≤ x ∧ x ≤ mx := by
  cases prices with
  | nil => exact absurd rfl h
  | cons p rest =>
    have hmin := foldl_min_spec rest p
    have hmax := foldl_max_spec rest p
    refine ⟨rest.foldl min p, rest.foldl max p, calculate_min_max_avx2_cons p rest, ?_,
      hmin.1, hmax.1, ?_⟩
    · rw [scalar_min_max, foldl_pair_eq]
    · intro x hx
      rcases List.mem_cons.mp hx with e | e
      · rw [e]
        exact ⟨hmin.2.1, hmax.2.1⟩
      · exact ⟨hmin.2.2 x e, hmax.2.2 x e⟩

/-- Witness of C4: six prices, one four-lane block and a scalar tail of two. -/
theorem C4_min_max_avx2_exact_witness :
    ∃ mn mx, calculate_min_max_avx2 ([5, 3, 8, 6, 2, 9] : List Nat) = some (mn, mx) ∧
      scalar_min_max ([5, 3, 8, 6, 2, 9] : List Nat) = some (mn, mx) ∧
      mn ∈ ([5, 3, 8, 6, 2, 9] : List Nat) ∧ mx ∈ ([5, 3, 8, 6, 2, 9] : List Nat) ∧
      ∀ x ∈ ([5, 3, 8, 6, 2, 9] : List Nat), mn ≤ x ∧ x ≤ mx :=
  C4_min_max_avx2_exact [5, 3, 8, 6, 2, 9] (by decide)

end PriceCalculator

/-! ## The tables -/

namespace UMap

variable {β : Type}

theorem find_assign_self (m : List (String × β)) (k : String) (v : β) :
    find (assign m k v) k = some v := by
  induction m with
  | nil => simp [assign, find]
  | cons e rest ih =>
    obtain ⟨k0, w⟩ := e
    by_cases h : k0 = k
    · simp [assign, find, h]
    · simp [assign, find, h, ih]

theorem find_assign_ne (m : List (String × β)) (k k1 : String) (v : β) (hne : k1 ≠ k) :
    find (assign m k v) k1 = find m k1 := by
  have hne2 : ¬ k = k1 := fun e => hne e.symm
  induction m with
  | nil => simp [assign, find, hne2]
  | cons e rest ih =>
    obtain ⟨k0, w⟩ := e
    by_cases h : k0 = k
    · subst h
      simp [assign, find, hne2]
    · by_cases h3 : k0 = k1
      · subst h3
        simp [assign, find, h]
      · simp [assign, find, h, h3, ih]

theorem erase_cons (k0 : String) (w : β) (rest : List (String × β)) (k : String) :
    erase ((k0, w) :: rest) k = if k0 = k then erase rest k else (k0, w) :: erase rest k := by
  unfold erase
  rw [List.filter_cons]
  by_cases h : k0 = k <;> simp [h]

theorem find_erase_self (m : List (String × β)) (k : String) : find (erase m k) k = none := by
  induction m with
  | nil => rfl
  | cons e rest ih =>
    obtain ⟨k0, w⟩ := e
    rw [erase_cons]
    by_cases h : k0 = k
    · rw [if_pos h]
      exact ih
    · rw [if_neg h]
      simp only [find, h, if_false]
      exact ih

theorem find_erase_ne (m : List (String × β)) (k k1 : String) (hne : k1 ≠ k) :
    find (erase m k) k1 = find m k1 := by
  induction m with
  | nil => rfl
  | cons e rest ih =>
    obtain ⟨k0, w⟩ := e
    rw [erase_cons]
    by_cases h : k0 = k
    · subst h
      have h2 : ¬ k0 = k1 := fun e => hne e.symm
      rw [if_pos rfl, ih]
      simp only [find, h2, if_false]
    · rw [if_neg h]
      by_cases h3 : k0 = k1
      · simp only [find, h3, if_true]
      · simp only [find, h3, if_false]
        exact ih

theorem find_some_mem (m : List (String × β)) (k : String) (v : β) (h : find m k = some v) :
    (k, v) ∈ m := by
  induction m with
  | nil => simp [find] at h
  | cons e rest ih =>
    obtain ⟨k0, w⟩ := e
    by_cases h0 : k0 = k
    · subst h0
      simp only [find, if_true, Option.some.injEq] at h
      subst h
      exact List.mem_cons_self _ _
    · simp only [find, h0, if_false] at h
      exact List.mem_cons_of_mem _ (ih h)

theorem mem_find_isSome (m : List (String × β)) (e : String × β) (h : e ∈ m) :
    (find m e.1).isSome = true := by
  induction m with
  | nil => cases h
  | cons e0 rest ih =>
    obtain ⟨k0, w⟩ := e0
    by_cases h0 : k0 = e.1
    · simp [find, h0]
    · rcases List.mem_cons.mp h with h1 | h1
      · subst h1
        exact absurd rfl h0
      · simpa [find, h0] using ih h1

theorem mem_assign (m : List (String × β)) (k : String) (v : β) (e : String × β)
    (h : e ∈ assign m k v) : e = (k, v) ∨ e ∈ m := by
  induction m with
  | nil =>
    left
    simpa [assign] using h
  | cons e0 rest ih =>
    obtain ⟨k0, w⟩ := e0
    by_cases h0 : k0 = k
    · simp only [assign, h0, if_true] at h
      rcases List.mem_cons.mp h with h1 | h1
      · exact Or.inl h1
      · exact Or.inr (List.mem_cons_of_mem _ h1)
    · simp only [assign, h0, if_false] at h
      rcases List.mem_cons.mp h with h1 | h1
      · right
        rw [h1]
        exact List.mem_cons_self _ _
      · rcases ih h1 with h2 | h2
        · exact Or.inl h2
        · exact Or.inr (List.mem_cons_of_mem _ h2)

theorem mem_erase (m : List (String × β)) (k : String) (e : String × β) (h : e ∈ erase m k) :
    e ∈ m ∧ e.1 ≠ k := by
  simpa [erase, List.mem_filter] using h

theorem mem_foldl_erase (ks : List String) :
    ∀ (m : List (String × β)) (e : String × β), e ∈ ks.foldl erase m → e ∈ m ∧ e.1 ∉ ks := by
  induction ks with
  | nil => exact fun m e h => ⟨h, List.not_mem_nil _⟩
  | cons k ks ih =>
    intro m e h
    have h1 := ih (erase m k) e h
    have h2 := mem_erase m k e h1.1
    refine ⟨h2.1, ?_⟩
    intro hm
    rcases List.mem_cons.mp hm with c | c
    · exact h2.2 c
    · exact h1.2 c

theorem find_foldl_erase_not_mem (ks : List String) :
    ∀ (m : List (String × β)) (k : String), k ∉ ks → find (ks.foldl erase m) k = find m k := by
  induction ks with
  | nil => exact fun m k _ => rfl
  | cons k0 ks ih =>
    intro m k hk
    have h1 : k ≠ k0 := fun e => hk (e ▸ List.mem_cons_self _ _)
    have h2 : k ∉ ks := fun e => hk (List.mem_cons_of_mem _ e)
    rw [List.foldl_cons, ih _ k h2, find_erase_ne m k0 k h1]

theorem find_foldl_erase_mem (ks : List String) :
    ∀ (m : List (String × β)) (k : String), k ∈ ks → find (ks.foldl erase m) k = none := by
  intro m k hk
  cases hf : find (ks.foldl erase m) k with
  | none => rfl
  | some v => exact absurd hk (mem_foldl_erase ks m (k, v) (find_some_mem _ _ _ hf)).2

end UMap

/-! ## Runs and their invariants -/

theorem run_append (m : StockMonitor) (evs : List Event) (e : Event) :
    run m (evs ++ [e]) = step (run m evs) e := by
  simp [run, List.foldl_append]

theorem pushed_buffer_WF (cfg : Config) (hpos : 0 < cfg.buffer_size) (m : StockMonitor)
    (hm : BufInv cfg m) (clk : TradeClock) (t : TradeData) :
    (pushed_buffer m clk t).buffer.WF ∧
      (pushed_buffer m clk t).buffer.capacity_ = cfg.buffer_size := by
  unfold pushed_buffer
  cases hf : UMap.find m.stock_buffers_ t.symbol with
  | none =>
    simp only [StockBuffer.new, CircularBuffer.capacity_push, hm.1]
    exact ⟨CircularBuffer.WF_push _ _ (CircularBuffer.WF_new _ hpos), rfl⟩
  | some b =>
    have h := hm.2 _ (UMap.find_some_mem _ _ _ hf)
    simp only [CircularBuffer.capacity_push]
    exact ⟨CircularBuffer.WF_push _ _ h.1, h.2⟩

theorem BufInv_process_trade (cfg : Config) (hpos : 0 < cfg.buffer_size) (m : StockMonitor)
    (hm : BufInv cfg m) (clk : TradeClock) (t : TradeData) :
    BufInv cfg (process_trade m clk t).1 := by
  refine ⟨hm.1, ?_⟩
  intro e he
  have he2 : e ∈ UMap.assign m.stock_buffers_ t.symbol (pushed_buffer m clk t) := he
  rcases UMap.mem_assign _ _ _ _ he2 with h | h
  · rw [h]
    exact pushed_buffer_WF cfg hpos m hm clk t
  · exact hm.2 e h

theorem BufInv_cleanup (cfg : Config) (m : StockMonitor) (hm : BufInv cfg m) (now : Int) :
    BufInv cfg (cleanup_inactive_stocks m now) := by
  unfold cleanup_inactive_stocks
  simp only []
  split
  · exact hm
  · exact ⟨hm.1, fun e he => hm.2 e (UMap.mem_foldl_erase _ _ e he).1⟩

theorem BufInv_step (cfg : Config) (hpos : 0 < cfg.buffer_size) (st : StockMonitor × List AlertData)
    (hm : BufInv cfg st.1) (e : Event) : BufInv cfg (step st e).1 := by
  cases e with
  | trade clk t => exact BufInv_process_trade cfg hpos st.1 hm clk t
  | quote clk q => exact BufInv_process_trade cfg hpos st.1 hm clk (quote_to_trade q)
  | reap now => exact BufInv_cleanup cfg st.1 hm now
  | set_callback => exact hm

theorem BufInv_run (cfg : Config) (hpos : 0 < cfg.buffer_size) (evs : List Event) :
    BufInv cfg (run (StockMonitor.new cfg) evs).1 := by
  induction evs using List.reverseRecOn with
  | nil => exact ⟨rfl, fun e he => by cases he⟩
  | append_singleton evs e ih =>
    rw [run_append]
    exact BufInv_step cfg hpos _ ih e

/-- C3. From a freshly constructed monitor with `buffer_size > 0`, after any sequence of
`process_trade` / `process_quote` calls (and reaper ticks and callback installations) the
buffer of every registered symbol holds at most `buffer_size` points; and at buffer level,
after any sequence of `push` and `clear` on a buffer of capacity `C > 0` the size is at
most `C`. -/
theorem C3_buffer_length_bounded {α : Type} [Inhabited α] (cfg : Config)
    (hpos : 0 < cfg.buffer_size) (evs : List Event) (C : Nat) (hC : 0 < C)
    (ops : List (CircularBuffer.Op α)) :
    (∀ sym sb, (sym, sb) ∈ (run (StockMonitor.new cfg) evs).1.stock_buffers_ →
        sb.buffer.size ≤ cfg.buffer_size ∧ sb.buffer.get_all.length ≤ cfg.buffer_size) ∧
      (ops.foldl CircularBuffer.applyOp (CircularBuffer.new C)).size ≤ C := by
  constructor
  · intro sym sb h
    have hb := (BufInv_run cfg hpos evs).2 _ h
    have hs : sb.buffer.size ≤ cfg.buffer_size := by
      rw [← hb.2]
      exact hb.1.size_le
    refine ⟨hs, ?_⟩
    rw [CircularBuffer.get_all_eq_contents _ hb.1, CircularBuffer.contents_length]
    exact hs
  · have h := CircularBuffer.reachable_WF ops (CircularBuffer.new C : CircularBuffer α)
      (CircularBuffer.WF_new C hC)
    have h2 := h.1.size_le
    rw [h.2] at h2
    exact h2

/-- Witness of C3: scenario S1 on the default configuration, and a buffer of capacity 2. -/
theorem C3_buffer_length_bounded_witness :
    (∀ sym sb, (sym, sb) ∈ (run (StockMonitor.new {}) S1).1.stock_buffers_ →
        sb.buffer.size ≤ 120 ∧ sb.buffer.get_all.length ≤ 120) ∧
      (([CircularBuffer.Op.push 1, CircularBuffer.Op.push 2, CircularBuffer.Op.push 3,
          CircularBuffer.Op.clear, CircularBuffer.Op.push 4] : List (CircularBuffer.Op Nat)).foldl
        CircularBuffer.applyOp (CircularBuffer.new 2)).size ≤ 2 :=
  C3_buffer_length_bounded {} (by decide) S1 2 (by decide) _

/-! ## process_trade: the threshold rule -/

theorem config_step (st : StockMonitor × List AlertData) (e : Event) :
    (step st e).1.config_ = st.1.config_ := by
  cases e with
  | trade clk t => rfl
  | quote clk q => rfl
  | reap now =>
    simp only [step, cleanup_inactive_stocks]
    split <;> rfl
  | set_callback => rfl

theorem config_run (cfg : Config) (evs : List Event) :
    (run (StockMonitor.new cfg) evs).1.config_ = cfg := by
  induction evs using List.reverseRecOn with
  | nil => rfl
  | append_singleton evs e ih => rw [run_append, config_step, ih]

theorem process_trade_no_analysis (m : StockMonitor) (clk : TradeClock) (t : TradeData)
    (ha : trade_analysis m clk t = none) :
    (process_trade m clk t).1.threshold_stocks_ = UMap.erase m.threshold_stocks_ t.symbol ∧
      (process_trade m clk t).2 = [] := by
  simp only [process_trade, ha, and_self]

theorem process_trade_out_of_band (m : StockMonitor) (clk : TradeClock) (t : TradeData)
    (a : Analysis) (ha : trade_analysis m clk t = some a)
    (hb : in_band m.config_ a.change_percent = false) :
    (process_trade m clk t).1.threshold_stocks_ = UMap.erase m.threshold_stocks_ t.symbol ∧
      (process_trade m clk t).2 = [] := by
  simp [process_trade, ha, hb]

theorem process_trade_due (m : StockMonitor) (clk : TradeClock) (t : TradeData)
    (a : Analysis) (ha : trade_analysis m clk t = some a)
    (hb : in_band m.config_ a.change_percent = true)
    (hd : alert_due m t.symbol a.change_percent) :
    (process_trade m clk t).1.threshold_stocks_ =
        UMap.assign m.threshold_stocks_ t.symbol (make_alert clk t a) ∧
      (process_trade m clk t).2 = if m.alert_callback_ then [make_alert clk t a] else [] := by
  rcases hd with h | ⟨stored, h, hs⟩
  · simp [process_trade, ha, hb, h]
  · have hs2 : (10 : ℚ)⁻¹ < |stored.change_percent - a.change_percent| := by
      rw [← one_div]
      exact hs
    simp [process_trade, ha, hb, h, hs2]

theorem process_trade_not_due (m : StockMonitor) (clk : TradeClock) (t : TradeData)
    (a : Analysis) (ha : trade_analysis m clk t = some a)
    (hb : in_band m.config_ a.change_percent = true)
    (hd : ¬ alert_due m t.symbol a.change_percent) :
    (process_trade m clk t).1.threshold_stocks_ = m.threshold_stocks_ ∧
      (process_trade m clk t).2 = [] := by
  cases h : UMap.find m.threshold_stocks_ t.symbol with
  | none => exact absurd (Or.inl h) hd
  | some stored =>
    have hs : ¬ |stored.change_percent - a.change_percent| > 1 / 10 :=
      fun c => hd (Or.inr ⟨stored, h, c⟩)
    have hs2 : ¬ (10 : ℚ)⁻¹ < |stored.change_percent - a.change_percent| := by
      rw [← one_div]
      exact hs
    simp [process_trade, ha, hb, h, hs2]

/-- C5. For every `process_trade` whose analysis yields an in-band `change_percent`: if
the symbol was absent from the threshold table or the stored `change_percent` differs from
the new one by more than 0.1, the new snapshot is written under the symbol and the alert
callback (when one is installed) is invoked once, with that same snapshot; otherwise the
threshold table is left unchanged and the callback is not invoked. -/
theorem C5_threshold_rule_in_band (m : StockMonitor) (clk : TradeClock) (trade : TradeData)
    (a : Analysis) (ha : trade_analysis m clk trade = some a)
    (hb : in_band m.config_ a.change_percent = true) :
    (alert_due m trade.symbol a.change_percent →
      (process_trade m clk trade).1.threshold_stocks_ =
          UMap.assign m.threshold_stocks_ trade.symbol (make_alert clk trade a) ∧
        UMap.find (process_trade m clk trade).1.threshold_stocks_ trade.symbol =
          some (make_alert clk trade a) ∧
        (process_trade m clk trade).2 =
          if m.alert_callback_ then [make_alert clk trade a] else []) ∧
    (¬ alert_due m trade.symbol a.change_percent →
      (process_trade m clk trade).1.threshold_stocks_ = m.threshold_stocks_ ∧
        (process_trade m clk trade).2 = []) := by
  constructor
  · intro hd
    have h := process_trade_due m clk trade a ha hb hd
    refine ⟨h.1, ?_, h.2⟩
    rw [h.1, UMap.find_assign_self]
  · exact process_trade_not_due m clk trade a ha hb

/-- Witness of C5: the last trade of scenario S1 (price 110 after ten trades at 100) finds
the symbol absent, so the snapshot with `change_percent = 10` is handed to the callback. -/
theorem C5_threshold_rule_in_band_witness :
    (process_trade (run (StockMonitor.new {}) S1_prefix).1 (S_clock 1010000)
        (S_trade 110 1010000)).2 =
      [make_alert (S_clock 1010000) (S_trade 110 1010000) ⟨10, 100, 110, 110⟩] :=
  ((C5_threshold_rule_in_band (run (StockMonitor.new {}) S1_prefix).1 (S_clock 1010000)
    (S_trade 110 1010000) ⟨10, 100, 110, 110⟩ (by with_unfolding_all decide)
    (by with_unfolding_all decide)).1 (Or.inl (by with_unfolding_all decide))).2.2.trans
    (if_pos (by with_unfolding_all decide))

theorem KeyInv_process_trade (m : StockMonitor) (hm : KeyInv m) (clk : TradeClock)
    (t : TradeData) : KeyInv (process_trade m clk t).1 := by
  intro e he
  cases ha : trade_analysis m clk t with
  | none =>
    rw [(process_trade_no_analysis m clk t ha).1] at he
    exact hm e (UMap.mem_erase _ _ e he).1
  | some a =>
    cases hb : in_band m.config_ a.change_percent with
    | false =>
      rw [(process_trade_out_of_band m clk t a ha hb).1] at he
      exact hm e (UMap.mem_erase _ _ e he).1
    | true =>
      by_cases hd : alert_due m t.symbol a.change_percent
      · rw [(process_trade_due m clk t a ha hb hd).1] at he
        rcases UMap.mem_assign _ _ _ e he with h | h
        · rw [h]
          rfl
        · exact hm e h
      · rw [(process_trade_not_due m clk t a ha hb hd).1] at he
        exact hm e he

theorem KeyInv_step (st : StockMonitor × List AlertData) (hm : KeyInv st.1) (e : Event) :
    KeyInv (step st e).1 := by
  cases e with
  | trade clk t => exact KeyInv_process_trade st.1 hm clk t
  | quote clk q => exact KeyInv_process_trade st.1 hm clk (quote_to_trade q)
  | reap now =>
    simp only [step, cleanup_inactive_stocks]
    split
    · exact hm
    · exact fun e he => hm e (UMap.mem_foldl_erase _ _ e he).1
  | set_callback => exact hm

theorem KeyInv_run (cfg : Config) (evs : List Event) :
    KeyInv (run (StockMonitor.new cfg) evs).1 := by
  induction evs using List.reverseRecOn with
  | nil => exact fun e he => by cases he
  | append_singleton evs e ih =>
    rw [run_append]
    exact KeyInv_step _ ih e

theorem mem_get_active_stocks (m : StockMonitor) (x : AlertData) :
    x ∈ get_active_stocks m ↔ ∃ e ∈ m.threshold_stocks_, e.2 = x := by
  unfold get_active_stocks
  rw [(List.perm_insertionSort _ _).mem_iff, List.mem_map]

/-- C7. For every `process_trade` (on a monitor reached by any run from the constructor)
whose analysis yields a `change_percent` outside `[threshold_min, threshold_max]`:
afterwards the trade's symbol has no entry in the threshold table, no snapshot returned by
`get_active_stocks` carries it, the entries of all other symbols are unchanged, and the
alert callback is not invoked. -/
theorem C7_exit_band (cfg : Config) (evs : List Event) (clk : TradeClock) (trade : TradeData)
    (a : Analysis)
    (ha : trade_analysis (run (StockMonitor.new cfg) evs).1 clk trade = some a)
    (hb : in_band cfg a.change_percent = false) :
    UMap.find (process_trade (run (StockMonitor.new cfg) evs).1 clk trade).1.threshold_stocks_
        trade.symbol = none ∧
      (∀ x ∈ get_active_stocks (process_trade (run (StockMonitor.new cfg) evs).1 clk trade).1,
        x.symbol ≠ trade.symbol) ∧
      (∀ s, s ≠ trade.symbol →
        UMap.find (process_trade (run (StockMonitor.new cfg) evs).1 clk trade).1.threshold_stocks_ s
          = UMap.find (run (StockMonitor.new cfg) evs).1.threshold_stocks_ s) ∧
      (process_trade (run (StockMonitor.new cfg) evs).1 clk trade).2 = [] := by
  have hb2 : in_band (run (StockMonitor.new cfg) evs).1.config_ a.change_percent = false := by
    rw [config_run]
    exact hb
  have h := process_trade_out_of_band _ clk trade a ha hb2
  refine ⟨?_, ?_, ?_, h.2⟩
  · rw [h.1, UMap.find_erase_self]
  · intro x hx
    obtain ⟨e, he, hex⟩ := (mem_get_active_stocks _ x).mp hx
    rw [h.1] at he
    have h1 := UMap.mem_erase _ _ e he
    rw [← hex, KeyInv_run cfg evs e h1.1]
    exact h1.2
  · intro s hs
    rw [h.1, UMap.find_erase_ne _ _ _ hs]

/-- Witness of C7 (scenario S3): after S1, a trade at price 115 (15 % above the window
minimum 100) removes AAPL from the threshold table and fires nothing. -/
theorem C7_exit_band_witness :
    get_active_stocks (process_trade (run (StockMonitor.new {}) S1).1 (S_clock 1013000)
        (S_trade 115 1013000)).1 = [] ∧
      (process_trade (run (StockMonitor.new {}) S1).1 (S_clock 1013000)
        (S_trade 115 1013000)).2 = [] :=
  ⟨by with_unfolding_all decide,
    (C7_exit_band {} S1 (S_clock 1013000) (S_trade 115 1013000) ⟨15, 100, 115, 115⟩
      (by with_unfolding_all decide) (by with_unfolding_all decide)).2.2.2⟩

/-- C8. For a symbol that is not in the threshold table and a monitor with a callback
installed, two consecutive in-band events for that symbol whose `change_percent` values
differ by less than 0.1 fire exactly one callback: the first event fires it and stores its
snapshot, the second fires nothing and leaves the threshold table unchanged. -/
theorem C8_hysteresis_single_callback (m : StockMonitor) (clk1 clk2 : TradeClock)
    (t1 t2 : TradeData) (a1 a2 : Analysis)
    (hsym : t2.symbol = t1.symbol)
    (habs : UMap.find m.threshold_stocks_ t1.symbol = none)
    (hcb : m.alert_callback_ = true)
    (ha1 : trade_analysis m clk1 t1 = some a1)
    (hb1 : in_band m.config_ a1.change_percent = true)
    (ha2 : trade_analysis (process_trade m clk1 t1).1 clk2 t2 = some a2)
    (hb2 : in_band m.config_ a2.change_percent = true)
    (hd : |a1.change_percent - a2.change_percent| < 1 / 10) :
    (process_trade m clk1 t1).2 = [make_alert clk1 t1 a1] ∧
      UMap.find (process_trade m clk1 t1).1.threshold_stocks_ t1.symbol =
        some (make_alert clk1 t1 a1) ∧
      (process_trade (process_trade m clk1 t1).1 clk2 t2).2 = [] ∧
      (process_trade (process_trade m clk1 t1).1 clk2 t2).1.threshold_stocks_ =
        (process_trade m clk1 t1).1.threshold_stocks_ ∧
      ((process_trade m clk1 t1).2 ++
        (process_trade (process_trade m clk1 t1).1 clk2 t2).2).length = 1 := by
  have h1 := process_trade_due m clk1 t1 a1 ha1 hb1 (Or.inl habs)
  have hfind : UMap.find (process_trade m clk1 t1).1.threshold_stocks_ t1.symbol =
      some (make_alert clk1 t1 a1) := by
    rw [h1.1, UMap.find_assign_self]
  have hnd : ¬ alert_due (process_trade m clk1 t1).1 t2.symbol a2.change_percent := by
    rintro (h | ⟨stored, h, hs⟩)
    · rw [hsym, hfind] at h
      cases h
    · rw [hsym, hfind] at h
      cases h
      exact absurd hd (not_lt.mpr (le_of_lt hs))
  have h2 := process_trade_not_due (process_trade m clk1 t1).1 clk2 t2 a2 ha2 hb2 hnd
  have hc : (process_trade m clk1 t1).2 = [make_alert clk1 t1 a1] := by
    rw [h1.2, hcb]
    rfl
  refine ⟨hc, hfind, h2.2, h2.1, ?_⟩
  rw [hc, h2.2]
  rfl

set_option maxRecDepth 8000 in
/-- Witness of C8 (scenario S2): after the ten trades at 100, the trade at 110 (10 %) fires
once, the trade at 110.05 (10.05 %) changes nothing, and a following trade at 111 (11 %)
fires the callback again. -/
theorem C8_hysteresis_single_callback_witness :
    ((process_trade (run (StockMonitor.new {}) S1_prefix).1 (S_clock 1010000)
          (S_trade 110 1010000)).2 ++
        (process_trade (process_trade (run (StockMonitor.new {}) S1_prefix).1 (S_clock 1010000)
          (S_trade 110 1010000)).1 (S_clock 1011000)
          (S_trade (11005 / 100) 1011000)).2).length = 1 ∧
      (process_trade (process_trade (run (StockMonitor.new {}) S1).1 (S_clock 1011000)
          (S_trade (11005 / 100) 1011000)).1 (S_clock 1012000)
          (S_trade 111 1012000)).2.map AlertData.change_percent = [11] :=
  ⟨(C8_hysteresis_single_callback (run (StockMonitor.new {}) S1_prefix).1 (S_clock 1010000)
      (S_clock 1011000) (S_trade 110 1010000) (S_trade (11005 / 100) 1011000)
      ⟨10, 100, 110, 110⟩ ⟨1005 / 100, 100, 11005 / 100, 11005 / 100⟩ rfl
      (by with_unfolding_all decide) (by with_unfolding_all decide)
      (by with_unfolding_all decide) (by with_unfolding_all decide)
      (by with_unfolding_all decide) (by with_unfolding_all decide)
      (by with_unfolding_all decide)).2.2.2.2,
    by with_unfolding_all decide⟩

/-! ## analyze_buffer_simd -/

theorem toUInt64_of_nonneg (z : Int) (h0 : 0 ≤ z) (h1 : z < 18446744073709551616) :
    toUInt64 z = z.toNat := by
  unfold toUInt64
  rw [Int.emod_eq_of_lt h0 h1]

theorem in_window_iff (now : Int) (point : PricePoint) (h0 : 120000 ≤ now)
    (h1 : now < 9223372036854775808) :
    in_window now point = true ↔ now - 120000 ≤ (point.timestamp : Int) := by
  unfold in_window
  rw [toUInt64_of_nonneg _ (by omega) (by omega), decide_eq_true_iff]
  omega

theorem analyze_eq (b : StockBuffer) (hb : b.buffer.WF) (now : Int) :
    analyze_buffer_simd b now =
      if (lastN 120 b.buffer.get_all).length < 10 then none
      else if ((lastN 120 b.buffer.get_all).filter (in_window now)).length < 5 then none
      else
        match ((lastN 120 b.buffer.get_all).filter (in_window now)).map PricePoint.price with
        | [] => none
        | p :: rest =>
          some ⟨if rest.foldl min p > 0 then
                ((((p :: rest).getLastD 0) - rest.foldl min p) / rest.foldl min p) * 100
              else 0,
            rest.foldl min p, rest.foldl max p, (p :: rest).getLastD 0⟩ := by
  unfold analyze_buffer_simd
  simp only [CircularBuffer.get_recent_eq _ hb, ← CircularBuffer.get_all_eq_contents _ hb,
    List.length_map]
  split
  · rfl
  · split
    · rfl
    · cases h : ((lastN 120 b.buffer.get_all).filter (in_window now)).map PricePoint.price with
      | nil => rfl
      | cons p rest => simp only [calculate_min_max_avx2_cons]

theorem analyze_isSome (b : StockBuffer) (hb : b.buffer.WF) (now : Int)
    (h10 : 10 ≤ (lastN 120 b.buffer.get_all).length)
    (h5 : 5 ≤ ((lastN 120 b.buffer.get_all).filter (in_window now)).length) :
    (analyze_buffer_simd b now).isSome = true := by
  rw [analyze_eq b hb now, if_neg (by omega), if_neg (by omega)]
  cases h : ((lastN 120 b.buffer.get_all).filter (in_window now)).map PricePoint.price with
  | nil =>
    have hl := congrArg List.length h
    simp only [List.length_map, List.length_nil] at hl
    omega
  | cons p rest => rfl

theorem filter_lastN_length_le {β : Type} (k : Nat) (l : List β) (f : β → Bool) :
    ((lastN k l).filter f).length ≤ (l.filter f).length :=
  ((List.drop_sublist _ l).filter f).length_le

/-- C10 as stated fails: five buffered points, all inside the window at the time of the
analysis, and yet the analysis returns none (fewer than 10 points are buffered). -/
theorem C10_counterexample :
    5 ≤ (five_point_buffer.buffer.get_all.filter (in_window 1004000)).length ∧
      analyze_buffer_simd five_point_buffer 1004000 = none := by
  with_unfolding_all decide

/-- C10, amended. For every (well-formed) symbol buffer and every current time: the
analysis returns none if fewer than 10 points are among the at most 120 most recent buffered
points, or fewer than 5 of those have their timestamp inside the window; it returns a
result whenever at least 10 such points are buffered and at least 5 of them are inside the
window. In particular it returns none whenever fewer than 5 buffered points are inside the
window. -/
theorem C10_analysis_result_iff (b : StockBuffer) (hb : b.buffer.WF) (now : Int) :
    ((lastN 120 b.buffer.get_all).length < 10 ∨
        ((lastN 120 b.buffer.get_all).filter (in_window now)).length < 5 →
      analyze_buffer_simd b now = none) ∧
    (10 ≤ (lastN 120 b.buffer.get_all).length →
      5 ≤ ((lastN 120 b.buffer.get_all).filter (in_window now)).length →
      (analyze_buffer_simd b now).isSome = true) ∧
    ((b.buffer.get_all.filter (in_window now)).length < 5 →
      analyze_buffer_simd b now = none) := by
  have key : (lastN 120 b.buffer.get_all).length < 10 ∨
        ((lastN 120 b.buffer.get_all).filter (in_window now)).length < 5 →
      analyze_buffer_simd b now = none := by
    intro h
    rw [analyze_eq b hb now]
    by_cases h10 : (lastN 120 b.buffer.get_all).length < 10
    · rw [if_pos h10]
    · rw [if_neg h10, if_pos (h.resolve_left h10)]
  refine ⟨key, analyze_isSome b hb now, fun h => key (Or.inr ?_)⟩
  exact lt_of_le_of_lt (filter_lastN_length_le 120 _ _) h

/-- Witness of C10 (amended): the registered buffer after scenario S1 holds eleven points,
all inside the window at `t+10s`, and the analysis returns a result. -/
theorem C10_analysis_result_iff_witness :
    (analyze_buffer_simd (pushed_buffer (run (StockMonitor.new {}) S1_prefix).1
      (S_clock 1010000) (S_trade 110 1010000)) 1010000).isSome = true :=
  (C10_analysis_result_iff (pushed_buffer (run (StockMonitor.new {}) S1_prefix).1
    (S_clock 1010000) (S_trade 110 1010000))
    (pushed_buffer_WF {} (by decide) _ (BufInv_run {} (by decide) S1_prefix) _ _).1
    1010000).2.1 (by with_unfolding_all decide) (by with_unfolding_all decide)

/-! ## Threshold membership along runs -/

theorem step_fst (st : StockMonitor × List AlertData) (e : Event) :
    (step (st.1, []) e).1 = (step st e).1 := by
  cases e <;> rfl

theorem track_analysis_fst (f : Bool) (sym : String) (m : StockMonitor) (evs : List Event) :
    (evs.foldl (track_analysis f sym) (m, false)).1 = (run m evs).1 := by
  induction evs using List.reverseRecOn with
  | nil => rfl
  | append_singleton evs e ih =>
    rw [run_append, List.foldl_append, List.foldl_cons, List.foldl_nil]
    show (step (_, []) e).1 = _
    rw [ih, step_fst]

theorem process_trade_find_other (m : StockMonitor) (clk : TradeClock) (t : TradeData)
    (s : String) (hs : s ≠ t.symbol) :
    UMap.find (process_trade m clk t).1.threshold_stocks_ s = UMap.find m.threshold_stocks_ s := by
  cases ha : trade_analysis m clk t with
  | none => rw [(process_trade_no_analysis m clk t ha).1, UMap.find_erase_ne _ _ _ hs]
  | some a =>
    cases hb : in_band m.config_ a.change_percent with
    | false => rw [(process_trade_out_of_band m clk t a ha hb).1, UMap.find_erase_ne _ _ _ hs]
    | true =>
      by_cases hd : alert_due m t.symbol a.change_percent
      · rw [(process_trade_due m clk t a ha hb hd).1, UMap.find_assign_ne _ _ _ _ hs]
      · rw [(process_trade_not_due m clk t a ha hb hd).1]

theorem process_trade_find_self (m : StockMonitor) (clk : TradeClock) (t : TradeData) :
    (UMap.find (process_trade m clk t).1.threshold_stocks_ t.symbol).isSome =
      trade_in_threshold m clk t := by
  unfold trade_in_threshold
  cases ha : trade_analysis m clk t with
  | none => rw [(process_trade_no_analysis m clk t ha).1, UMap.find_erase_self]; rfl
  | some a =>
    cases hb : in_band m.config_ a.change_percent with
    | false =>
      rw [(process_trade_out_of_band m clk t a ha hb).1, UMap.find_erase_self]
      simp [hb]
    | true =>
      simp only [hb]
      by_cases hd : alert_due m t.symbol a.change_percent
      · rw [(process_trade_due m clk t a ha hb hd).1, UMap.find_assign_self]
        rfl
      · rw [(process_trade_not_due m clk t a ha hb hd).1]
        cases hf : UMap.find m.threshold_stocks_ t.symbol with
        | none => exact absurd (Or.inl hf) hd
        | some stored => rfl

theorem cleanup_find (m : StockMonitor) (now : Int) (s : String) :
    UMap.find (cleanup_inactive_stocks m now).threshold_stocks_ s =
      if s ∈ inactive_symbols m now then none else UMap.find m.threshold_stocks_ s := by
  unfold cleanup_inactive_stocks
  simp only []
  by_cases he : (inactive_symbols m now).isEmpty = true
  · rw [if_pos he]
    have hn : inactive_symbols m now = [] := List.isEmpty_iff.mp he
    rw [hn, if_neg (List.not_mem_nil s)]
  · rw [if_neg he]
    by_cases hs : s ∈ inactive_symbols m now
    · rw [if_pos hs]
      exact UMap.find_foldl_erase_mem _ _ _ hs
    · rw [if_neg hs]
      exact UMap.find_foldl_erase_not_mem _ _ _ hs

/-- C6 as stated fails: after scenario S1 the most recent analysis for AAPL was in band,
and a reaper tick more than an hour later removes AAPL from the threshold table. -/
theorem C6_counterexample :
    last_analysis_in_band false (StockMonitor.new {}) (S1 ++ [Event.reap 4700000]) "AAPL" = true ∧
      (UMap.find (run (StockMonitor.new {}) (S1 ++ [Event.reap 4700000])).1.threshold_stocks_
        "AAPL").isSome = false := by
  with_unfolding_all decide

/-- C6, amended. After any finite sequence of `process_trade` / `process_quote` calls and
reaper ticks on a fresh monitor, a symbol is in the threshold table if and only if the most
recent completed analysis for it returned a `change_percent` within
`[threshold_min, threshold_max]` and no reaper tick has collected the symbol for removal
since that analysis. -/
theorem C6_membership_iff_last_analysis (cfg : Config) (evs : List Event) (sym : String) :
    (UMap.find (run (StockMonitor.new cfg) evs).1.threshold_stocks_ sym).isSome =
      last_analysis_in_band true (StockMonitor.new cfg) evs sym := by
  unfold last_analysis_in_band
  induction evs using List.reverseRecOn with
  | nil => rfl
  | append_singleton evs e ih =>
    rw [run_append, List.foldl_append, List.foldl_cons, List.foldl_nil]
    have hfst := track_analysis_fst true sym (StockMonitor.new cfg) evs
    cases e with
    | trade clk t =>
      simp only [track_analysis, step, hfst]
      by_cases hs : t.symbol = sym
      · rw [if_pos hs, ← hs, process_trade_find_self]
      · rw [if_neg hs, process_trade_find_other _ _ _ _ (fun c => hs c.symm), ih]
    | quote clk q =>
      simp only [track_analysis, step, hfst, process_quote]
      by_cases hs : q.symbol = sym
      · rw [if_pos hs]
        have hq : (quote_to_trade q).symbol = sym := hs
        rw [← hq, process_trade_find_self]
      · rw [if_neg hs]
        have hq : sym ≠ (quote_to_trade q).symbol := fun c => hs c.symm
        rw [process_trade_find_other _ _ _ _ hq, ih]
    | reap now =>
      simp only [track_analysis, step, hfst, cleanup_find, Bool.true_and, decide_eq_true_eq]
      by_cases hs : sym ∈ inactive_symbols (run (StockMonitor.new cfg) evs).1 now
      · rw [if_pos hs, if_pos hs]
        rfl
      · rw [if_neg hs, if_neg hs, ih]
    | set_callback => exact ih

/-! ## Buffer contents along runs -/

theorem pushed_buffer_get_all (cfg : Config) (hpos : 0 < cfg.buffer_size) (m : StockMonitor)
    (hm : BufInv cfg m) (clk : TradeClock) (t : TradeData) :
    (pushed_buffer m clk t).buffer.get_all =
      lastN cfg.buffer_size (symbol_points m t.symbol ++ [trade_point t]) := by
  rw [CircularBuffer.get_all_eq_contents _ (pushed_buffer_WF cfg hpos m hm clk t).1]
  unfold pushed_buffer symbol_points
  cases hf : UMap.find m.stock_buffers_ t.symbol with
  | none =>
    have hw : (CircularBuffer.new m.config_.buffer_size : CircularBuffer PricePoint).WF := by
      rw [hm.1]
      exact CircularBuffer.WF_new _ hpos
    simp only [StockBuffer.new]
    rw [CircularBuffer.contents_push _ _ hw]
    simp [CircularBuffer.contents, CircularBuffer.new, hm.1, trade_point]
  | some b =>
    have h := hm.2 _ (UMap.find_some_mem _ _ _ hf)
    simp only []
    rw [CircularBuffer.contents_push _ _ h.1, h.2, CircularBuffer.get_all_eq_contents _ h.1]
    rfl

theorem symbol_points_process_trade (m : StockMonitor) (clk : TradeClock) (t : TradeData) :
    symbol_points (process_trade m clk t).1 t.symbol = (pushed_buffer m clk t).buffer.get_all := by
  unfold symbol_points
  have h : (process_trade m clk t).1.stock_buffers_ =
      UMap.assign m.stock_buffers_ t.symbol (pushed_buffer m clk t) := rfl
  rw [h, UMap.find_assign_self]

theorem foldl_min_const (p : ℚ) (l : List ℚ) (h : ∀ x ∈ l, x = p) : l.foldl min p = p := by
  have hs := foldl_min_spec l p
  rcases List.mem_cons.mp hs.1 with e | e
  · exact e
  · exact h _ e

theorem getLastD_const (p : ℚ) (l : List ℚ) (h : ∀ x ∈ l, x = p) (d : ℚ) :
    (p :: l).getLastD d = p := by
  have hne : p :: l ≠ [] := List.cons_ne_nil _ _
  have hm : (p :: l).getLast hne ∈ p :: l := List.getLast_mem hne
  have e : (p :: l).getLastD d = (p :: l).getLast hne := by
    rw [List.getLastD_eq_getLast?, List.getLast?_eq_getLast _ hne]
    rfl
  rw [e]
  rcases List.mem_cons.mp hm with c | c
  · exact c
  · exact h _ c

theorem analyze_constant_price (b : StockBuffer) (hb : b.buffer.WF) (now : Int) (p : ℚ)
    (hp : ∀ pt ∈ b.buffer.get_all, pt.price = p) (a : Analysis)
    (ha : analyze_buffer_simd b now = some a) : a.change_percent = 0 := by
  rw [analyze_eq b hb now] at ha
  split at ha
  · cases ha
  · split at ha
    · cases ha
    · have hall : ∀ x ∈ ((lastN 120 b.buffer.get_all).filter (in_window now)).map
          PricePoint.price, x = p := by
        intro x hx
        obtain ⟨pt, hpt, hx2⟩ := List.mem_map.mp hx
        rw [← hx2]
        exact hp pt (List.mem_of_mem_drop (List.mem_of_mem_filter hpt))
      cases hl : ((lastN 120 b.buffer.get_all).filter (in_window now)).map PricePoint.price with
      | nil =>
        rw [hl] at ha
        cases ha
      | cons p0 rest =>
        rw [hl] at ha hall
        have h0 : p0 = p := hall p0 (List.mem_cons_self _ _)
        have hr : ∀ x ∈ rest, x = p := fun x hx => hall x (List.mem_cons_of_mem _ hx)
        subst h0
        simp only [Option.some.injEq] at ha
        rw [← ha]
        simp only [foldl_min_const p0 rest hr, getLastD_const p0 rest hr, sub_self, zero_div,
          zero_mul, ite_self]

theorem in_band_default (c : ℚ) : in_band {} c = true ↔ 9 ≤ c ∧ c ≤ 13 := by
  simp [in_band]

theorem callback_process_trade (m : StockMonitor) (clk : TradeClock) (t : TradeData) :
    (process_trade m clk t).1.alert_callback_ = m.alert_callback_ := rfl

theorem run_cons_append (m : StockMonitor) (e0 : Event) (evs : List Event) (e : Event) :
    run m (e0 :: (evs ++ [e])) = step (run m (e0 :: evs)) e := by
  rw [← List.cons_append, run_append]

theorem run_constant_trades (sym : String) (p : ℚ) (ts : List (TradeClock × TradeData)) :
    (∀ e ∈ ts, e.2.symbol = sym ∧ e.2.price = p) → ts.length ≤ 120 →
      (run (StockMonitor.new {})
          (Event.set_callback :: ts.map (fun e => Event.trade e.1 e.2))).1.threshold_stocks_ = [] ∧
        (run (StockMonitor.new {})
          (Event.set_callback :: ts.map (fun e => Event.trade e.1 e.2))).2 = [] ∧
        (run (StockMonitor.new {})
          (Event.set_callback :: ts.map (fun e => Event.trade e.1 e.2))).1.alert_callback_ = true ∧
        symbol_points (run (StockMonitor.new {})
          (Event.set_callback :: ts.map (fun e => Event.trade e.1 e.2))).1 sym =
            ts.map (fun e => trade_point e.2) := by
  induction ts using List.reverseRecOn with
  | nil => exact fun _ _ => ⟨rfl, rfl, rfl, rfl⟩
  | append_singleton ts e ih =>
    intro hall hlen
    rw [List.length_append, List.length_singleton] at hlen
    obtain ⟨ih1, ih2, ih3, ih4⟩ :=
      ih (fun x hx => hall x (List.mem_append_left _ hx)) (by omega)
    have he := hall e (List.mem_append_right _ (List.mem_singleton_self e))
    rw [List.map_append, List.map_cons, List.map_nil, run_cons_append]
    generalize hr : run (StockMonitor.new {})
      (Event.set_callback :: ts.map (fun e => Event.trade e.1 e.2)) = r at ih1 ih2 ih3 ih4
    have hinv : BufInv {} r.1 := by
      rw [← hr]
      exact BufInv_run {} (by decide) _
    have hga : (pushed_buffer r.1 e.1 e.2).buffer.get_all =
        ts.map (fun e => trade_point e.2) ++ [trade_point e.2] := by
      rw [pushed_buffer_get_all {} (by decide) r.1 hinv, he.1, ih4, lastN_of_length_le]
      simp only [List.length_append, List.length_map, List.length_singleton]
      exact hlen
    have hnot : trade_in_threshold r.1 e.1 e.2 = false := by
      unfold trade_in_threshold
      cases ha : trade_analysis r.1 e.1 e.2 with
      | none => rfl
      | some a =>
        have hz : a.change_percent = 0 := by
          refine analyze_constant_price _ (pushed_buffer_WF {} (by decide) r.1 hinv _ _).1
            e.1.analyze_ms p ?_ a ha
          intro pt hpt
          rw [hga] at hpt
          rcases List.mem_append.mp hpt with h | h
          · obtain ⟨x, hx, hx2⟩ := List.mem_map.mp h
            rw [← hx2]
            exact (hall x (List.mem_append_left _ hx)).2
          · rw [List.mem_singleton.mp h]
            exact he.2
        simp only [hz, hinv.1]
        cases hb : in_band {} (0 : ℚ) with
        | false => rfl
        | true =>
          have := (in_band_default 0).mp hb
          norm_num at this
    have hthr : (process_trade r.1 e.1 e.2).1.threshold_stocks_ = [] ∧
        (process_trade r.1 e.1 e.2).2 = [] := by
      unfold trade_in_threshold at hnot
      cases ha : trade_analysis r.1 e.1 e.2 with
      | none =>
        have h := process_trade_no_analysis r.1 e.1 e.2 ha
        rw [ih1] at h
        exact h
      | some a =>
        rw [ha] at hnot
        have h := process_trade_out_of_band r.1 e.1 e.2 a ha hnot
        rw [ih1] at h
        exact h
    refine ⟨hthr.1, ?_, ih3, ?_⟩
    · show r.2 ++ (process_trade r.1 e.1 e.2).2 = []
      rw [ih2, hthr.2]
      rfl
    · show symbol_points (process_trade r.1 e.1 e.2).1 sym = _
      rw [← he.1, symbol_points_process_trade, hga, List.map_append, List.map_cons,
        List.map_nil]

theorem foldl_max_const (p : ℚ) (l : List ℚ) (h : ∀ x ∈ l, x = p) : l.foldl max p = p := by
  have hs := foldl_max_spec l p
  rcases List.mem_cons.mp hs.1 with e | e
  · exact e
  · exact h _ e

theorem analyze_step_up (b : StockBuffer) (hb : b.buffer.WF) (now : Int) (p q : ℚ)
    (pre : List PricePoint) (pt : PricePoint)
    (hga : b.buffer.get_all = pre ++ [pt]) (hlen : pre.length + 1 ≤ 120) (h9 : 9 ≤ pre.length)
    (hpre : ∀ x ∈ pre, x.price = p ∧ in_window now x = true)
    (hpt : pt.price = q) (hw : in_window now pt = true) (hp : 0 < p) (hpq : p < q) :
    analyze_buffer_simd b now = some ⟨(q - p) / p * 100, p, q, q⟩ := by
  have hall : lastN 120 b.buffer.get_all = pre ++ [pt] := by
    rw [hga, lastN_of_length_le]
    simpa using hlen
  have hfil : (pre ++ [pt]).filter (in_window now) = pre ++ [pt] := by
    rw [List.filter_eq_self]
    intro x hx
    rcases List.mem_append.mp hx with h | h
    · exact (hpre x h).2
    · rw [List.mem_singleton.mp h]
      exact hw
  rw [analyze_eq b hb now, hall, hfil, if_neg (by simp; omega), if_neg (by simp; omega)]
  cases pre with
  | nil => simp at h9
  | cons x0 rest =>
    have hx0 : x0.price = p := (hpre x0 (List.mem_cons_self _ _)).1
    have hrest : ∀ x ∈ rest.map PricePoint.price, x = p := by
      intro x hx
      obtain ⟨y, hy, hy2⟩ := List.mem_map.mp hx
      rw [← hy2]
      exact (hpre y (List.mem_cons_of_mem _ hy)).1
    have hmin : List.foldl min p (rest.map PricePoint.price ++ [q]) = p := by
      rw [List.foldl_append, foldl_min_const p _ hrest]
      simp [min_eq_left hpq.le]
    have hmax : List.foldl max p (rest.map PricePoint.price ++ [q]) = q := by
      rw [List.foldl_append, foldl_max_const p _ hrest]
      simp [max_eq_right hpq.le]
    have hlast : (p :: (rest.map PricePoint.price ++ [q])).getLastD 0 = q := by
      rw [← List.cons_append, List.getLastD_concat]
    simp only [List.cons_append, List.map_cons, List.map_append, List.map_nil, hx0, hpt, hmin,
      hmax, hlast, gt_iff_lt, hp, if_true]

/-- C9. On a fresh monitor with the default configuration and a callback installed, ten
trades of one symbol at price `p > 0` followed by one trade of that symbol at price `q`,
with `(q - p) / p * 100` inside `[9, 13]` and all eleven event timestamps inside the window
of the last trade's analysis (`timestamp ≥ now - 120000`, see `in_window_iff`), leave
`get_active_stocks` with exactly one snapshot: that
symbol, `change_percent = (q - p) / p * 100`, `min = p`, `max = q`, `current = q`; over the
whole run the callback was invoked exactly once, with that snapshot. -/
theorem C9_threshold_entry (sym : String) (p q : ℚ) (hp : 0 < p)
    (hlo : 9 ≤ (q - p) / p * 100) (hhi : (q - p) / p * 100 ≤ 13)
    (first : List (TradeClock × TradeData)) (hlen : first.length = 10)
    (hfirst : ∀ e ∈ first, e.2.symbol = sym ∧ e.2.price = p)
    (clk : TradeClock) (last : TradeData) (hsym : last.symbol = sym) (hprice : last.price = q)
    (hwin : ∀ e ∈ first, in_window clk.analyze_ms (trade_point e.2) = true)
    (hwin2 : in_window clk.analyze_ms (trade_point last) = true) :
    get_active_stocks (run (StockMonitor.new {}) (Event.set_callback ::
        (first.map (fun e => Event.trade e.1 e.2) ++ [Event.trade clk last]))).1 =
      [{ symbol := sym, change_percent := (q - p) / p * 100, current_price := q,
         min_price := p, max_price := q, volume := last.volume,
         timestamp := toUInt64 clk.alert_ms,
         webull_url := generate_webull_link sym last.exchange }] ∧
    (run (StockMonitor.new {}) (Event.set_callback ::
        (first.map (fun e => Event.trade e.1 e.2) ++ [Event.trade clk last]))).2 =
      [{ symbol := sym, change_percent := (q - p) / p * 100, current_price := q,
         min_price := p, max_price := q, volume := last.volume,
         timestamp := toUInt64 clk.alert_ms,
         webull_url := generate_webull_link sym last.exchange }] := by
  have hpq : p < q := by
    by_contra h
    have h1 : (q - p) / p ≤ 0 := div_nonpos_of_nonpos_of_nonneg (by linarith) hp.le
    have h2 : (q - p) / p * 100 ≤ 0 := mul_nonpos_of_nonpos_of_nonneg h1 (by norm_num)
    linarith
  obtain ⟨ih1, ih2, ih3, ih4⟩ := run_constant_trades sym p first hfirst (by omega)
  rw [run_cons_append]
  generalize hr : run (StockMonitor.new {})
    (Event.set_callback :: first.map (fun e => Event.trade e.1 e.2)) = r at ih1 ih2 ih3 ih4
  have hinv : BufInv {} r.1 := by
    rw [← hr]
    exact BufInv_run {} (by decide) _
  have hga : (pushed_buffer r.1 clk last).buffer.get_all =
      first.map (fun e => trade_point e.2) ++ [trade_point last] := by
    rw [pushed_buffer_get_all {} (by decide) r.1 hinv, hsym, ih4, lastN_of_length_le]
    simp only [List.length_append, List.length_map, List.length_singleton, hlen]
    decide
  have ha : trade_analysis r.1 clk last = some ⟨(q - p) / p * 100, p, q, q⟩ := by
    refine analyze_step_up _ (pushed_buffer_WF {} (by decide) r.1 hinv _ _).1 _ p q _ _ hga
      (by simp [hlen]) (by simp [hlen]) ?_ hprice hwin2 hp hpq
    intro x hx
    obtain ⟨e, he, hex⟩ := List.mem_map.mp hx
    rw [← hex]
    exact ⟨(hfirst e he).2, hwin e he⟩
  have hb : in_band r.1.config_ ((q - p) / p * 100) = true := by
    rw [hinv.1]
    exact (in_band_default _).mpr ⟨hlo, hhi⟩
  have hdue := process_trade_due r.1 clk last _ ha hb (Or.inl (by rw [ih1]; rfl))
  rw [ih1, ih3] at hdue
  have halert : make_alert clk last ⟨(q - p) / p * 100, p, q, q⟩ =
      { symbol := sym, change_percent := (q - p) / p * 100, current_price := q,
        min_price := p, max_price := q, volume := last.volume,
        timestamp := toUInt64 clk.alert_ms,
        webull_url := generate_webull_link sym last.exchange } := by
    simp [make_alert, hsym]
  constructor
  · show get_active_stocks (process_trade r.1 clk last).1 = _
    unfold get_active_stocks
    rw [hdue.1, ← halert]
    simp [UMap.assign]
  · show r.2 ++ (process_trade r.1 clk last).2 = _
    rw [ih2, hdue.2, ← halert]
    rfl

/-- Witness of C9 (scenario S1): `p = 100`, `q = 110`; AAPL is reported with
`change_percent = 10`, `min = 100`, `max = 110`, `current = 110`, and the callback ran
once. -/
theorem C9_threshold_entry_witness :
    get_active_stocks (run (StockMonitor.new {}) S1).1 =
        [{ symbol := "AAPL", change_percent := 10, current_price := 110, min_price := 100,
           max_price := 110, volume := 1, timestamp := 1010000,
           webull_url := "https://www.webull.com/quote/nasdaq-aapl" }] ∧
      (run (StockMonitor.new {}) S1).2 =
        [{ symbol := "AAPL", change_percent := 10, current_price := 110, min_price := 100,
           max_price := 110, volume := 1, timestamp := 1010000,
           webull_url := "https://www.webull.com/quote/nasdaq-aapl" }] := by
  have h := C9_threshold_entry "AAPL" 100 110 (by norm_num) (by norm_num) (by norm_num)
    S1_trades rfl (by with_unfolding_all decide) (S_clock 1010000) (S_trade 110 1010000) rfl rfl
    (by with_unfolding_all decide) (by with_unfolding_all decide)
  have e1 : ((110 : ℚ) - 100) / 100 * 100 = 10 := by norm_num
  rw [e1] at h
  exact h

/-! ## The values of the analysis -/

theorem get_all_length_le (b : CircularBuffer PricePoint) (hb : b.WF) :
    b.get_all.length ≤ b.capacity_ := by
  rw [CircularBuffer.get_all_eq_contents _ hb, CircularBuffer.contents_length]
  exact hb.size_le

/-- C11. Whenever the analysis returns a result, there are in-window points among the (at
most 120) most recent buffered points, `current_price` is the price of the most recently
appended one of them, `min_price` and `max_price` are the least and the greatest of their
prices, and `change_percent` is `(current - min) / min * 100` if `min > 0` and `0`
otherwise. For a buffer of capacity at most 120 these points are all the buffered in-window
points. -/
theorem C11_analysis_values (b : StockBuffer) (hb : b.buffer.WF) (now : Int) (a : Analysis)
    (ha : analyze_buffer_simd b now = some a) :
    (∃ hne : (lastN 120 b.buffer.get_all).filter (in_window now) ≠ [],
      a.current_price =
        (((lastN 120 b.buffer.get_all).filter (in_window now)).getLast hne).price) ∧
    (∃ pt ∈ (lastN 120 b.buffer.get_all).filter (in_window now), pt.price = a.min_price) ∧
    (∀ pt ∈ (lastN 120 b.buffer.get_all).filter (in_window now), a.min_price ≤ pt.price) ∧
    (∃ pt ∈ (lastN 120 b.buffer.get_all).filter (in_window now), pt.price = a.max_price) ∧
    (∀ pt ∈ (lastN 120 b.buffer.get_all).filter (in_window now), pt.price ≤ a.max_price) ∧
    a.change_percent =
      (if a.min_price > 0 then (a.current_price - a.min_price) / a.min_price * 100 else 0) ∧
    (b.buffer.capacity_ ≤ 120 → lastN 120 b.buffer.get_all = b.buffer.get_all) := by
  have hcap : b.buffer.capacity_ ≤ 120 → lastN 120 b.buffer.get_all = b.buffer.get_all :=
    fun h => lastN_of_length_le _ _ ((get_all_length_le _ hb).trans h)
  rw [analyze_eq b hb now] at ha
  generalize (lastN 120 b.buffer.get_all).filter (in_window now) = pts at ha ⊢
  split at ha
  · cases ha
  · split at ha
    · cases ha
    · cases hl : pts.map PricePoint.price with
      | nil =>
        rw [hl] at ha
        cases ha
      | cons p rest =>
        rw [hl] at ha
        simp only [Option.some.injEq] at ha
        have hne : pts ≠ [] := by
          intro e
          rw [e] at hl
          cases hl
        have hmem : ∀ pt ∈ pts, pt.price ∈ p :: rest := by
          intro pt hpt
          rw [← hl]
          exact List.mem_map_of_mem _ hpt
        have hmin := foldl_min_spec rest p
        have hmax := foldl_max_spec rest p
        have hcur : (p :: rest).getLastD 0 = (pts.getLast hne).price := by
          rw [← hl, List.getLastD_eq_getLast?, List.getLast?_map,
            List.getLast?_eq_getLast pts hne]
          rfl
        rw [← ha]
        refine ⟨⟨hne, hcur⟩, ?_, ?_, ?_, ?_, rfl, hcap⟩
        · have h1 := hmin.1
          rw [← hl] at h1
          obtain ⟨pt, hpt, e⟩ := List.mem_map.mp h1
          exact ⟨pt, hpt, e⟩
        · intro pt hpt
          rcases List.mem_cons.mp (hmem pt hpt) with e | e
          · rw [e]
            exact hmin.2.1
          · exact hmin.2.2 _ e
        · have h1 := hmax.1
          rw [← hl] at h1
          obtain ⟨pt, hpt, e⟩ := List.mem_map.mp h1
          exact ⟨pt, hpt, e⟩
        · intro pt hpt
          rcases List.mem_cons.mp (hmem pt hpt) with e | e
          · rw [e]
            exact hmax.2.1
          · exact hmax.2.2 _ e

/-- Witness of C11: the analysis of the last trade of scenario S1. -/
theorem C11_analysis_values_witness :
    (⟨10, 100, 110, 110⟩ : Analysis).change_percent =
      (if (⟨10, 100, 110, 110⟩ : Analysis).min_price > 0 then
        ((⟨10, 100, 110, 110⟩ : Analysis).current_price -
            (⟨10, 100, 110, 110⟩ : Analysis).min_price) /
          (⟨10, 100, 110, 110⟩ : Analysis).min_price * 100
      else 0) :=
  (C11_analysis_values (pushed_buffer (run (StockMonitor.new {}) S1_prefix).1
    (S_clock 1010000) (S_trade 110 1010000))
    (pushed_buffer_WF {} (by decide) _ (BufInv_run {} (by decide) S1_prefix) _ _).1
    1010000 ⟨10, 100, 110, 110⟩ (by with_unfolding_all decide)).2.2.2.2.2.1

/-! ## Insufficient data -/

theorem UMap.erase_of_find_none {β : Type} (m : List (String × β)) (k : String)
    (h : UMap.find m k = none) : UMap.erase m k = m := by
  induction m with
  | nil => rfl
  | cons e rest ih =>
    obtain ⟨k0, w⟩ := e
    rw [UMap.erase_cons]
    by_cases h0 : k0 = k
    · simp [UMap.find, h0] at h
    · simp only [UMap.find, h0, if_false] at h
      rw [if_neg h0, ih h]

/-- C12 as stated fails (scenario S4): after S1, AAPL is in the threshold table; a trade
more than 120 s later leaves a single in-window point, the analysis returns none, and the
call removes AAPL from the threshold table. -/
theorem C12_counterexample :
    trade_analysis (run (StockMonitor.new {}) S1).1 (S_clock 1140000) (S_trade 110 1140000) =
        none ∧
      (UMap.find (run (StockMonitor.new {}) S1).1.threshold_stocks_ "AAPL").isSome = true ∧
      UMap.find (process_trade (run (StockMonitor.new {}) S1).1 (S_clock 1140000)
        (S_trade 110 1140000)).1.threshold_stocks_ "AAPL" = none := by
  with_unfolding_all decide

/-- C12, amended. When the analysis of a trade returns none, `process_trade` fires no alert
and removes the trade's symbol from the threshold table if it is there; the entries of all
other symbols are unchanged, and if the symbol had no entry the table is unchanged. -/
theorem C12_no_analysis_erases (m : StockMonitor) (clk : TradeClock) (trade : TradeData)
    (ha : trade_analysis m clk trade = none) :
    (process_trade m clk trade).2 = [] ∧
      (process_trade m clk trade).1.threshold_stocks_ =
        UMap.erase m.threshold_stocks_ trade.symbol ∧
      UMap.find (process_trade m clk trade).1.threshold_stocks_ trade.symbol = none ∧
      (∀ s, s ≠ trade.symbol →
        UMap.find (process_trade m clk trade).1.threshold_stocks_ s =
          UMap.find m.threshold_stocks_ s) ∧
      (UMap.find m.threshold_stocks_ trade.symbol = none →
        (process_trade m clk trade).1.threshold_stocks_ = m.threshold_stocks_) := by
  have h := process_trade_no_analysis m clk trade ha
  refine ⟨h.2, h.1, ?_, ?_, ?_⟩
  · rw [h.1, UMap.find_erase_self]
  · intro s hs
    rw [h.1, UMap.find_erase_ne _ _ _ hs]
  · intro hn
    rw [h.1, UMap.erase_of_find_none _ _ hn]

/-- Witness of C12 (amended): the late trade of scenario S4 fires nothing. -/
theorem C12_no_analysis_erases_witness :
    (process_trade (run (StockMonitor.new {}) S1).1 (S_clock 1140000)
      (S_trade 110 1140000)).2 = [] :=
  (C12_no_analysis_erases (run (StockMonitor.new {}) S1).1 (S_clock 1140000)
    (S_trade 110 1140000) (by with_unfolding_all decide)).1

/-! ## get_active_stocks -/

theorem orderedInsert_sorted_ge (a : AlertData) (l : List AlertData)
    (h : List.Sorted (fun x y : AlertData => x.change_percent ≥ y.change_percent) l) :
    List.Sorted (fun x y : AlertData => x.change_percent ≥ y.change_percent)
      (List.orderedInsert (fun x y : AlertData => x.change_percent > y.change_percent) a l) := by
  induction l with
  | nil => simp
  | cons b l ih =>
    have hb := List.sorted_cons.mp h
    by_cases hab : a.change_percent > b.change_percent
    · rw [List.orderedInsert, if_pos hab]
      refine List.sorted_cons.mpr ⟨?_, h⟩
      intro x hx
      rcases List.mem_cons.mp hx with e | e
      · rw [e]
        exact le_of_lt hab
      · exact le_trans (hb.1 x e) (le_of_lt hab)
    · rw [List.orderedInsert, if_neg hab]
      refine List.sorted_cons.mpr ⟨?_, ih hb.2⟩
      intro x hx
      rcases (List.mem_orderedInsert _).mp hx with e | e
      · rw [e]
        exact not_lt.mp hab
      · exact hb.1 x e

theorem insertionSort_sorted_ge (l : List AlertData) :
    List.Sorted (fun x y : AlertData => x.change_percent ≥ y.change_percent)
      (List.insertionSort (fun x y : AlertData => x.change_percent > y.change_percent) l) := by
  induction l with
  | nil => simp
  | cons a l ih => exact orderedInsert_sorted_ge a _ ih

set_option maxRecDepth 8000 in
/-- C13 as stated fails: two symbols with equal `change_percent`, `A` stored before `B`;
`get_active_stocks` returns `B` before `A`, although `A < B`. -/
theorem C13_counterexample :
    (get_active_stocks (run (StockMonitor.new {}) tie_run).1).map
        (fun a => (a.symbol, a.change_percent)) = [("B", 10), ("A", 10)] ∧
      "A" < "B" := by
  with_unfolding_all decide

/-- C13, amended. For every state of the threshold table, `get_active_stocks` returns a
permutation of the stored snapshots that is sorted by `change_percent` descending; the
comparator does not look at the symbol, so the order among equal values is not fixed. -/
theorem C13_active_sorted_perm (m : StockMonitor) :
    List.Perm (get_active_stocks m) (m.threshold_stocks_.map Prod.snd) ∧
      List.Sorted (fun x y : AlertData => x.change_percent ≥ y.change_percent)
        (get_active_stocks m) :=
  ⟨List.perm_insertionSort _ _, insertionSort_sorted_ge _⟩

/-! ## Registry keys -/

theorem UMap.find_isSome_iff_mem_keys {β : Type} (m : List (String × β)) (k : String) :
    (UMap.find m k).isSome = true ↔ k ∈ UMap.keys m := by
  induction m with
  | nil => simp [UMap.find, UMap.keys]
  | cons e rest ih =>
    obtain ⟨k0, w⟩ := e
    by_cases h0 : k0 = k
    · simp [UMap.find, UMap.keys, h0]
    · have h1 : ¬ k = k0 := fun c => h0 c.symm
      simp only [UMap.find, h0, if_false, ih]
      simp [UMap.keys, h1]

theorem UMap.keys_assign {β : Type} (m : List (String × β)) (k : String) (v : β) :
    UMap.keys (UMap.assign m k v) =
      if (UMap.find m k).isSome = true then UMap.keys m else UMap.keys m ++ [k] := by
  induction m with
  | nil => simp [UMap.assign, UMap.find, UMap.keys]
  | cons e rest ih =>
    obtain ⟨k0, w⟩ := e
    by_cases h0 : k0 = k
    · simp [UMap.assign, UMap.find, UMap.keys, h0]
    · have ih2 : List.map Prod.fst (UMap.assign rest k v) =
          if (UMap.find rest k).isSome = true then List.map Prod.fst rest
          else List.map Prod.fst rest ++ [k] := ih
      simp only [UMap.assign, UMap.find, UMap.keys, h0, if_false, List.map_cons, ih2]
      split <;> simp

theorem UMap.erase_sublist {β : Type} (m : List (String × β)) (k : String) :
    List.Sublist (UMap.erase m k) m :=
  List.filter_sublist m

theorem UMap.foldl_erase_sublist {β : Type} (ks : List String) :
    ∀ (m : List (String × β)), List.Sublist (ks.foldl UMap.erase m) m := by
  induction ks with
  | nil => exact fun m => List.Sublist.refl m
  | cons k ks ih => exact fun m => (ih (UMap.erase m k)).trans (UMap.erase_sublist m k)

theorem UMap.nodup_mem_find {β : Type} (m : List (String × β)) (k : String) (v : β)
    (hn : (UMap.keys m).Nodup) (h : (k, v) ∈ m) : UMap.find m k = some v := by
  induction m with
  | nil => cases h
  | cons e rest ih =>
    obtain ⟨k0, w⟩ := e
    have hn2 : k0 ∉ UMap.keys rest ∧ (UMap.keys rest).Nodup := List.nodup_cons.mp hn
    rcases List.mem_cons.mp h with h1 | h1
    · cases h1
      simp [UMap.find]
    · have hk : k ∈ UMap.keys rest := List.mem_map_of_mem Prod.fst h1
      have h0 : ¬ k0 = k := fun c => hn2.1 (c ▸ hk)
      simp only [UMap.find, h0, if_false]
      exact ih hn2.2 h1

theorem NodupKeys_process_trade (m : StockMonitor) (hm : NodupKeys m) (clk : TradeClock)
    (t : TradeData) : NodupKeys (process_trade m clk t).1 := by
  show (UMap.keys (UMap.assign m.stock_buffers_ t.symbol (pushed_buffer m clk t))).Nodup
  rw [UMap.keys_assign]
  split
  · exact hm
  · rename_i hf
    have hk : t.symbol ∉ UMap.keys m.stock_buffers_ :=
      fun c => hf ((UMap.find_isSome_iff_mem_keys _ _).mpr c)
    exact List.Nodup.append hm (List.nodup_singleton _)
      (List.disjoint_singleton.mpr hk)

theorem NodupKeys_cleanup (m : StockMonitor) (hm : NodupKeys m) (now : Int) :
    NodupKeys (cleanup_inactive_stocks m now) := by
  unfold cleanup_inactive_stocks
  simp only []
  split
  · exact hm
  · exact List.Nodup.sublist ((UMap.foldl_erase_sublist _ _).map Prod.fst) hm

theorem NodupKeys_run (cfg : Config) (evs : List Event) :
    NodupKeys (run (StockMonitor.new cfg) evs).1 := by
  induction evs using List.reverseRecOn with
  | nil => exact List.nodup_nil
  | append_singleton evs e ih =>
    rw [run_append]
    cases e with
    | trade clk t => exact NodupKeys_process_trade _ ih clk t
    | quote clk q => exact NodupKeys_process_trade _ ih clk (quote_to_trade q)
    | reap now => exact NodupKeys_cleanup _ ih now
    | set_callback => exact ih

theorem process_trade_thr_mem (m : StockMonitor) (clk : TradeClock) (t : TradeData)
    (e : String × AlertData) (he : e ∈ (process_trade m clk t).1.threshold_stocks_) :
    e.1 = t.symbol ∨ e ∈ m.threshold_stocks_ := by
  cases ha : trade_analysis m clk t with
  | none =>
    rw [(process_trade_no_analysis m clk t ha).1] at he
    exact Or.inr (UMap.mem_erase _ _ e he).1
  | some a =>
    cases hb : in_band m.config_ a.change_percent with
    | false =>
      rw [(process_trade_out_of_band m clk t a ha hb).1] at he
      exact Or.inr (UMap.mem_erase _ _ e he).1
    | true =>
      by_cases hd : alert_due m t.symbol a.change_percent
      · rw [(process_trade_due m clk t a ha hb hd).1] at he
        rcases UMap.mem_assign _ _ _ e he with h | h
        · left
          rw [h]
        · exact Or.inr h
      · rw [(process_trade_not_due m clk t a ha hb hd).1] at he
        exact Or.inr he

theorem SubInv_process_trade (m : StockMonitor) (hm : SubInv m) (clk : TradeClock)
    (t : TradeData) : SubInv (process_trade m clk t).1 := by
  intro e he
  show (UMap.find (UMap.assign m.stock_buffers_ t.symbol (pushed_buffer m clk t)) e.1).isSome
    = true
  by_cases hk : e.1 = t.symbol
  · rw [hk, UMap.find_assign_self]
    rfl
  · rw [UMap.find_assign_ne _ _ _ _ hk]
    rcases process_trade_thr_mem m clk t e he with h | h
    · exact absurd h hk
    · exact hm e h

theorem SubInv_cleanup (m : StockMonitor) (hm : SubInv m) (now : Int) :
    SubInv (cleanup_inactive_stocks m now) := by
  unfold cleanup_inactive_stocks
  simp only []
  split
  · exact hm
  · intro e he
    have h := UMap.mem_foldl_erase _ _ e he
    show (UMap.find (List.foldl UMap.erase m.stock_buffers_ (inactive_symbols m now)) e.1).isSome
      = true
    rw [UMap.find_foldl_erase_not_mem _ _ _ h.2]
    exact hm e h.1

theorem SubInv_run (cfg : Config) (evs : List Event) :
    SubInv (run (StockMonitor.new cfg) evs).1 := by
  induction evs using List.reverseRecOn with
  | nil => exact fun e he => by cases he
  | append_singleton evs e ih =>
    rw [run_append]
    cases e with
    | trade clk t => exact SubInv_process_trade _ ih clk t
    | quote clk q => exact SubInv_process_trade _ ih clk (quote_to_trade q)
    | reap now => exact SubInv_cleanup _ ih now
    | set_callback => exact ih

/-! ## The reaper -/

theorem mem_inactive_symbols (m : StockMonitor) (now : Int) (s : String) :
    s ∈ inactive_symbols m now ↔
      ∃ b, (s, b) ∈ m.stock_buffers_ ∧ b.last_update < toUInt64 (now - 3600000) := by
  unfold inactive_symbols
  constructor
  · intro h
    obtain ⟨e, he, hs⟩ := List.mem_map.mp h
    have h2 := List.mem_filter.mp he
    refine ⟨e.2, ?_, by simpa using h2.2⟩
    rw [← hs]
    exact h2.1
  · rintro ⟨b, hb, hlt⟩
    exact List.mem_map.mpr ⟨(s, b), List.mem_filter.mpr ⟨hb, by simpa using hlt⟩, rfl⟩

theorem cleanup_find_registry (m : StockMonitor) (now : Int) (s : String) :
    UMap.find (cleanup_inactive_stocks m now).stock_buffers_ s =
      if s ∈ inactive_symbols m now then none else UMap.find m.stock_buffers_ s := by
  unfold cleanup_inactive_stocks
  simp only []
  by_cases he : (inactive_symbols m now).isEmpty = true
  · rw [if_pos he]
    have hn : inactive_symbols m now = [] := List.isEmpty_iff.mp he
    rw [hn, if_neg (List.not_mem_nil s)]
  · rw [if_neg he]
    by_cases hs : s ∈ inactive_symbols m now
    · rw [if_pos hs]
      exact UMap.find_foldl_erase_mem _ _ _ hs
    · rw [if_neg hs]
      exact UMap.find_foldl_erase_not_mem _ _ _ hs

theorem cleanup_all_idle (m : StockMonitor) (hs : SubInv m) (now : Int)
    (hall : ∀ e ∈ m.stock_buffers_, e.2.last_update < toUInt64 (now - 3600000)) :
    (cleanup_inactive_stocks m now).stock_buffers_ = [] ∧
      (cleanup_inactive_stocks m now).threshold_stocks_ = [] := by
  have hreg : ∀ e ∈ m.stock_buffers_, e.1 ∈ inactive_symbols m now :=
    fun e he => (mem_inactive_symbols m now e.1).mpr ⟨e.2, he, hall e he⟩
  have hthr : ∀ e ∈ m.threshold_stocks_, e.1 ∈ inactive_symbols m now := by
    intro e he
    obtain ⟨b, hb⟩ := Option.isSome_iff_exists.mp (hs e he)
    exact hreg (e.1, b) (UMap.find_some_mem _ _ _ hb)
  unfold cleanup_inactive_stocks
  simp only []
  split
  · rename_i hempty
    have hn : inactive_symbols m now = [] := List.isEmpty_iff.mp hempty
    rw [hn] at hreg hthr
    exact ⟨List.eq_nil_iff_forall_not_mem.mpr (fun e he => List.not_mem_nil _ (hreg e he)),
      List.eq_nil_iff_forall_not_mem.mpr (fun e he => List.not_mem_nil _ (hthr e he))⟩
  · constructor
    · refine List.eq_nil_iff_forall_not_mem.mpr (fun e he => ?_)
      have h := UMap.mem_foldl_erase _ _ e he
      exact h.2 (hreg e h.1)
    · refine List.eq_nil_iff_forall_not_mem.mpr (fun e he => ?_)
      have h := UMap.mem_foldl_erase _ _ e he
      exact h.2 (hthr e h.1)

/-- C14. One reaper tick at wall-clock time `now`, on a monitor reached by any run from the
constructor, with the cutoff `now - 3600000` as the code computes it (converted to
`uint64_t`; it is the integer `now - 3600000` for every clock reading from 3600000 up):
a registered symbol whose `last_update` is at or above the cutoff keeps its registry entry
and its threshold entry; a registered symbol whose `last_update` is below the cutoff is
removed from both tables; and when all registered symbols are below the cutoff, both
tables are empty afterwards and `get_stats` reports zero tracked symbols. -/
theorem C14_reaper_tick (cfg : Config) (evs : List Event) (m : StockMonitor)
    (hm : m = (run (StockMonitor.new cfg) evs).1) (now : Int)
    (sizeof_StockBuffer sizeof_PricePoint : Nat) :
    (∀ s b, UMap.find m.stock_buffers_ s = some b →
        toUInt64 (now - 3600000) ≤ b.last_update →
        UMap.find (cleanup_inactive_stocks m now).stock_buffers_ s = some b ∧
          UMap.find (cleanup_inactive_stocks m now).threshold_stocks_ s =
            UMap.find m.threshold_stocks_ s) ∧
    (∀ s b, UMap.find m.stock_buffers_ s = some b →
        b.last_update < toUInt64 (now - 3600000) →
        UMap.find (cleanup_inactive_stocks m now).stock_buffers_ s = none ∧
          UMap.find (cleanup_inactive_stocks m now).threshold_stocks_ s = none) ∧
    ((∀ e ∈ m.stock_buffers_, e.2.last_update < toUInt64 (now - 3600000)) →
        (cleanup_inactive_stocks m now).stock_buffers_ = [] ∧
          (cleanup_inactive_stocks m now).threshold_stocks_ = [] ∧
          (get_stats sizeof_StockBuffer sizeof_PricePoint
            (cleanup_inactive_stocks m now)).1.total_stocks = 0 ∧
          (get_stats sizeof_StockBuffer sizeof_PricePoint
            (cleanup_inactive_stocks m now)).1.threshold_stocks = 0) ∧
    (3600000 ≤ now → now < 9223372036854775808 →
        (toUInt64 (now - 3600000) : Int) = now - 3600000) := by
  have hnd : NodupKeys m := hm ▸ NodupKeys_run cfg evs
  have hsub : SubInv m := hm ▸ SubInv_run cfg evs
  refine ⟨?_, ?_, ?_, ?_⟩
  · intro s b hf hge
    have hnot : s ∉ inactive_symbols m now := by
      intro c
      obtain ⟨b2, hb2, hlt⟩ := (mem_inactive_symbols m now s).mp c
      have e := UMap.nodup_mem_find _ _ _ hnd hb2
      rw [hf] at e
      cases e
      omega
    rw [cleanup_find_registry, cleanup_find, if_neg hnot, if_neg hnot]
    exact ⟨hf, rfl⟩
  · intro s b hf hlt
    have hin : s ∈ inactive_symbols m now :=
      (mem_inactive_symbols m now s).mpr ⟨b, UMap.find_some_mem _ _ _ hf, hlt⟩
    rw [cleanup_find_registry, cleanup_find, if_pos hin, if_pos hin]
    exact ⟨rfl, rfl⟩
  · intro hall
    have h := cleanup_all_idle m hsub now hall
    refine ⟨h.1, h.2, ?_, ?_⟩
    · simp [get_stats, h.1]
    · simp [get_stats, h.2]
  · intro h0 h1
    rw [toUInt64_of_nonneg _ (by omega) (by omega)]
    omega

/-- Witness of C14 (scenario S6 with one symbol): after S1 and a pause of more than an
hour, one reaper tick leaves both tables empty and zero tracked symbols. -/
theorem C14_reaper_tick_witness :
    (cleanup_inactive_stocks (run (StockMonitor.new {}) S1).1 4700000).stock_buffers_ = [] ∧
      (cleanup_inactive_stocks (run (StockMonitor.new {}) S1).1 4700000).threshold_stocks_ = [] ∧
      (get_stats 0 64 (cleanup_inactive_stocks (run (StockMonitor.new {}) S1).1
        4700000)).1.total_stocks = 0 ∧
      (get_stats 0 64 (cleanup_inactive_stocks (run (StockMonitor.new {}) S1).1
        4700000)).1.threshold_stocks = 0 :=
  (C14_reaper_tick {} S1 (run (StockMonitor.new {}) S1).1 rfl 4700000 0 64).2.2.1
    (by with_unfolding_all decide)

/-! ## process_quote -/

/-- C15. For every quote and every monitor state, `process_quote` yields exactly the state
and the callback invocations of `process_trade` on the trade with the same symbol,
timestamp and exchange, price `(bid_price + ask_price) / 2` and volume
`bid_size + ask_size` in `uint64_t` arithmetic, which is the plain sum whenever that sum
fits in 64 bits. -/
theorem C15_quote_is_mid_price_trade (m : StockMonitor) (clk : TradeClock) (q : QuoteData) :
    process_quote m clk q =
        process_trade m clk
          { symbol := q.symbol, price := (q.bid_price + q.ask_price) / 2,
            volume := (q.bid_size + q.ask_size) % 18446744073709551616,
            timestamp := q.timestamp, exchange := q.exchange } ∧
      (q.bid_size + q.ask_size < 18446744073709551616 →
        process_quote m clk q =
          process_trade m clk
            { symbol := q.symbol, price := (q.bid_price + q.ask_price) / 2,
              volume := q.bid_size + q.ask_size,
              timestamp := q.timestamp, exchange := q.exchange }) := by
  refine ⟨rfl, fun h => ?_⟩
  unfold process_quote quote_to_trade addUInt64
  rw [Nat.mod_eq_of_lt h]

/-- Witness of C15 (scenario S5): bid 100, ask 102, sizes 10 and 20 are processed as the
trade with price 101 and volume 30. -/
theorem C15_quote_is_mid_price_trade_witness :
    process_quote (StockMonitor.new {}) (S_clock 1000000) S5_quote =
      process_trade (StockMonitor.new {}) (S_clock 1000000)
        ⟨"AAPL", 101, 30, 1000000, "NASDAQ"⟩ := by
  have h := (C15_quote_is_mid_price_trade (StockMonitor.new {}) (S_clock 1000000) S5_quote).2
    (by decide)
  have e : (S5_quote.bid_price + S5_quote.ask_price) / 2 = 101 := by
    simp only [S5_quote]
    norm_num
  rw [e] at h
  exact h

/-! ## generate_webull_link -/

/-- C16. For every symbol and exchange string, `generate_webull_link` returns
`https://www.webull.com/quote/` followed by the exchange slug, `-`, and the symbol with
every character lowercased (`tolower`), where the slug is `nasdaq`, `nyse`, `amex` or `arca`
when the exchange is exactly `NASDAQ`, `NYSE`, `AMEX` or `ARCA`, and `nasdaq` for every
other string. The result is a function of `(symbol, exchange)` alone: the link stored in a
snapshot does not depend on the monitor or the clock. -/
theorem C16_webull_link_format (symbol exchange : String) :
    generate_webull_link symbol exchange =
        "https://www.webull.com/quote/" ++ exchange_slug exchange ++ "-" ++
          String.mk (symbol.data.map Char.toLower) ∧
      (exchange ≠ "NASDAQ" → exchange ≠ "NYSE" → exchange ≠ "AMEX" → exchange ≠ "ARCA" →
        exchange_slug exchange = "nasdaq") ∧
      exchange_slug "NASDAQ" = "nasdaq" ∧ exchange_slug "NYSE" = "nyse" ∧
      exchange_slug "AMEX" = "amex" ∧ exchange_slug "ARCA" = "arca" ∧
      (∀ (clk1 clk2 : TradeClock) (t1 t2 : TradeData) (a1 a2 : Analysis),
        t1.symbol = symbol → t2.symbol = symbol → t1.exchange = exchange →
        t2.exchange = exchange →
        (make_alert clk1 t1 a1).webull_url = (make_alert clk2 t2 a2).webull_url) := by
  refine ⟨?_, ?_, by decide, by decide, by decide, by decide, ?_⟩
  · have hslug : (match UMap.find exchange_map exchange with
        | some slug => slug
        | none => "nasdaq") = exchange_slug exchange := by
      by_cases h1 : exchange = "NASDAQ"
      · subst h1
        rfl
      · by_cases h2 : exchange = "NYSE"
        · subst h2
          rfl
        · by_cases h3 : exchange = "AMEX"
          · subst h3
            rfl
          · by_cases h4 : exchange = "ARCA"
            · subst h4
              rfl
            · have g1 : ¬ "NASDAQ" = exchange := fun c => h1 c.symm
              have g2 : ¬ "NYSE" = exchange := fun c => h2 c.symm
              have g3 : ¬ "AMEX" = exchange := fun c => h3 c.symm
              have g4 : ¬ "ARCA" = exchange := fun c => h4 c.symm
              simp only [UMap.find, exchange_map, exchange_slug, h1, h2, h3, h4, g1, g2, g3, g4,
                if_false]
    unfold generate_webull_link
    simp only [hslug]
  · intro h1 h2 h3 h4
    simp [exchange_slug, h1, h2, h3, h4]
  · intro clk1 clk2 t1 t2 a1 a2 hs1 hs2 he1 he2
    simp [make_alert, hs1, hs2, he1, he2]

/-- Witness of C16: an unknown exchange falls back to `nasdaq`, and the symbol is
lowercased. -/
theorem C16_webull_link_format_witness :
    generate_webull_link "AAPL" "LSE" = "https://www.webull.com/quote/nasdaq-aapl" :=
  (C16_webull_link_format "AAPL" "LSE").1.trans (by decide)

/-! ## The registry under process_trade -/

theorem registry_find_self (m : StockMonitor) (clk : TradeClock) (t : TradeData) :
    UMap.find (process_trade m clk t).1.stock_buffers_ t.symbol =
      some (pushed_buffer m clk t) :=
  UMap.find_assign_self _ _ _

theorem registry_find_other (m : StockMonitor) (clk : TradeClock) (t : TradeData) (s : String)
    (hs : s ≠ t.symbol) :
    UMap.find (process_trade m clk t).1.stock_buffers_ s = UMap.find m.stock_buffers_ s :=
  UMap.find_assign_ne _ _ _ _ hs

theorem registry_keys (m : StockMonitor) (clk : TradeClock) (t : TradeData) :
    UMap.keys (process_trade m clk t).1.stock_buffers_ =
      if (UMap.find m.stock_buffers_ t.symbol).isSome = true then UMap.keys m.stock_buffers_
      else UMap.keys m.stock_buffers_ ++ [t.symbol] :=
  UMap.keys_assign _ _ _

theorem symbol_points_after (cfg : Config) (hpos : 0 < cfg.buffer_size) (m : StockMonitor)
    (hm : BufInv cfg m) (clk : TradeClock) (t : TradeData) :
    symbol_points (process_trade m clk t).1 t.symbol =
      lastN cfg.buffer_size (symbol_points m t.symbol ++ [trade_point t]) := by
  rw [symbol_points_process_trade, pushed_buffer_get_all cfg hpos m hm]

theorem lastN_concat {β : Type} (k : Nat) (hk : 0 < k) (l : List β) (x : β) :
    lastN k (l ++ [x]) = lastN (k - 1) l ++ [x] := by
  unfold lastN
  rw [List.length_append, List.length_singleton, List.drop_append_of_le_length (by omega)]
  congr 2
  omega

theorem getLast?_lastN_concat {β : Type} (k : Nat) (hk : 0 < k) (l : List β) (x : β) :
    (lastN k (l ++ [x])).getLast? = some x := by
  rw [lastN_concat k hk, List.getLast?_append]
  rfl

/-! ## Malformed events -/

/-- C17 as stated fails: on a fresh monitor the trade with empty symbol and price `-1` is
registered and its point buffered; and scenario S1 played with the empty symbol invokes
the callback and fills the threshold table. -/
theorem C17_counterexample :
    UMap.keys (StockMonitor.new {}).stock_buffers_ = [] ∧
      UMap.keys (process_trade (StockMonitor.new {}) (S_clock 1000000)
        malformed_trade).1.stock_buffers_ = [""] ∧
      (symbol_points (process_trade (StockMonitor.new {}) (S_clock 1000000)
        malformed_trade).1 "").map (fun pt => (pt.price, pt.timestamp, pt.volume)) =
          [(-1, 1000000, 1)] ∧
      (run (StockMonitor.new {}) empty_symbol_run).2.length = 1 ∧
      UMap.keys (run (StockMonitor.new {}) empty_symbol_run).1.threshold_stocks_ = [""] :=
  ⟨by with_unfolding_all decide, by with_unfolding_all decide, by with_unfolding_all decide,
    by with_unfolding_all decide, by with_unfolding_all decide⟩

/-- C17, amended. `process_trade` does not inspect the price or the symbol: for every
trade, also one with a non-positive price or an empty symbol, on a monitor reached by any
run from the constructor (`buffer_size > 0`), the call registers the trade's symbol,
appends the trade's point as the newest point of that symbol's buffer, and counts the
update. -/
theorem C17_no_validation (cfg : Config) (hpos : 0 < cfg.buffer_size) (evs : List Event)
    (clk : TradeClock) (trade : TradeData) :
    (UMap.find (process_trade (run (StockMonitor.new cfg) evs).1 clk
        trade).1.stock_buffers_ trade.symbol).isSome = true ∧
      symbol_points (process_trade (run (StockMonitor.new cfg) evs).1 clk trade).1 trade.symbol =
        lastN cfg.buffer_size
          (symbol_points (run (StockMonitor.new cfg) evs).1 trade.symbol ++ [trade_point trade]) ∧
      (symbol_points (process_trade (run (StockMonitor.new cfg) evs).1 clk trade).1
        trade.symbol).getLast? = some (trade_point trade) ∧
      (process_trade (run (StockMonitor.new cfg) evs).1 clk trade).1.total_updates_ =
        addUInt64 (run (StockMonitor.new cfg) evs).1.total_updates_ 1 := by
  have hp := symbol_points_after cfg hpos _ (BufInv_run cfg hpos evs) clk trade
  refine ⟨?_, hp, ?_, rfl⟩
  · rw [registry_find_self]
    rfl
  · rw [hp, getLast?_lastN_concat _ hpos]

/-- Witness of C17 (amended): the malformed trade on a fresh monitor. -/
theorem C17_no_validation_witness :
    (symbol_points (process_trade (run (StockMonitor.new {}) []).1 (S_clock 1000000)
      malformed_trade).1 malformed_trade.symbol).getLast? = some (trade_point malformed_trade) :=
  (C17_no_validation {} (by decide) [] (S_clock 1000000) malformed_trade).2.2.1

/-! ## Registry capacity -/

/-- C18 as stated fails: with `max_stocks = 1`, trades of two different symbols leave two
entries in the registry. -/
theorem C18_counterexample :
    one_stock_config.max_stocks = 1 ∧
      UMap.keys (run (StockMonitor.new one_stock_config)
        [T_event "A" 100 1000000, T_event "B" 100 1001000]).1.stock_buffers_ = ["A", "B"] := by
  with_unfolding_all decide

/-- C18, amended. The registry is not bounded by `max_stocks` (the value is only the
`reserve` hint of the constructor): `process_trade` for a symbol not yet present always
inserts one entry, also when the registry already holds `max_stocks` symbols or more;
`process_trade` for an already-present symbol inserts nothing and appends the point to that
symbol's buffer. -/
theorem C18_registry_unbounded (m : StockMonitor) (clk : TradeClock) (trade : TradeData) :
    (UMap.find m.stock_buffers_ trade.symbol = none →
      UMap.keys (process_trade m clk trade).1.stock_buffers_ =
          UMap.keys m.stock_buffers_ ++ [trade.symbol] ∧
        (process_trade m clk trade).1.stock_buffers_.length = m.stock_buffers_.length + 1) ∧
    (∀ b, UMap.find m.stock_buffers_ trade.symbol = some b →
      UMap.keys (process_trade m clk trade).1.stock_buffers_ = UMap.keys m.stock_buffers_ ∧
        (process_trade m clk trade).1.stock_buffers_.length = m.stock_buffers_.length ∧
        UMap.find (process_trade m clk trade).1.stock_buffers_ trade.symbol =
          some { buffer := b.buffer.push (trade_point trade)
                 last_update := toUInt64 clk.push_ms
                 last_price := trade.price }) := by
  have hlen : ∀ (l : List (String × StockBuffer)), l.length = (UMap.keys l).length :=
    fun l => (List.length_map l Prod.fst).symm
  constructor
  · intro hf
    have hk := registry_keys m clk trade
    rw [hf] at hk
    have hk2 : UMap.keys (process_trade m clk trade).1.stock_buffers_ =
        UMap.keys m.stock_buffers_ ++ [trade.symbol] := by simpa using hk
    refine ⟨hk2, ?_⟩
    rw [hlen, hk2, List.length_append, List.length_singleton, ← hlen]
  · intro b hf
    have hk := registry_keys m clk trade
    rw [hf] at hk
    have hk2 : UMap.keys (process_trade m clk trade).1.stock_buffers_ =
        UMap.keys m.stock_buffers_ := by simpa using hk
    refine ⟨hk2, ?_, ?_⟩
    · rw [hlen, hk2, ← hlen]
    · rw [registry_find_self]
      simp only [pushed_buffer, hf, trade_point]

/-- Witness of C18 (amended): with `max_stocks = 1` and symbol `A` registered, a trade of
the new symbol `B` is inserted. -/
theorem C18_registry_unbounded_witness :
    (process_trade (run (StockMonitor.new one_stock_config) [T_event "A" 100 1000000]).1
      (S_clock 1001000) ⟨"B", 100, 1, 1001000, "NASDAQ"⟩).1.stock_buffers_.length =
      (run (StockMonitor.new one_stock_config)
        [T_event "A" 100 1000000]).1.stock_buffers_.length + 1 :=
  ((C18_registry_unbounded (run (StockMonitor.new one_stock_config)
    [T_event "A" 100 1000000]).1 (S_clock 1001000) ⟨"B", 100, 1, 1001000, "NASDAQ"⟩).1
    (Option.isNone_iff_eq_none.mp (by with_unfolding_all decide))).2

/-! ## Get-or-create -/

theorem symbol_points_other (m : StockMonitor) (clk : TradeClock) (t : TradeData) (s : String)
    (hs : s ≠ t.symbol) :
    symbol_points (process_trade m clk t).1 s = symbol_points m s := by
  unfold symbol_points
  rw [registry_find_other m clk t s hs]

theorem run_symbol_trades (cfg : Config) (hpos : 0 < cfg.buffer_size) (s : String)
    (ts : List (TradeClock × TradeData)) :
    (∀ e ∈ ts, e.2.symbol = s) →
      UMap.keys (run (StockMonitor.new cfg)
          (ts.map (fun e => Event.trade e.1 e.2))).1.stock_buffers_ =
          (if ts.isEmpty = true then [] else [s]) ∧
        symbol_points (run (StockMonitor.new cfg) (ts.map (fun e => Event.trade e.1 e.2))).1 s =
          lastN cfg.buffer_size (ts.map (fun e => trade_point e.2)) := by
  induction ts using List.reverseRecOn with
  | nil => exact fun _ => ⟨rfl, by simp [lastN, symbol_points, run, StockMonitor.new, UMap.find]⟩
  | append_singleton ts e ih =>
    intro hall
    obtain ⟨ih1, ih2⟩ := ih (fun x hx => hall x (List.mem_append_left _ hx))
    have he : e.2.symbol = s := hall e (List.mem_append_right _ (List.mem_singleton_self e))
    rw [List.map_append, List.map_cons, List.map_nil, run_append]
    have hinv := BufInv_run cfg hpos (ts.map (fun e => Event.trade e.1 e.2))
    generalize run (StockMonitor.new cfg) (ts.map (fun e => Event.trade e.1 e.2)) = r
      at ih1 ih2 hinv
    constructor
    · show UMap.keys (process_trade r.1 e.1 e.2).1.stock_buffers_ = _
      rw [registry_keys, he]
      have hiff := UMap.find_isSome_iff_mem_keys r.1.stock_buffers_ s
      rw [ih1] at hiff ⊢
      cases ts with
      | nil =>
        have hno : ¬ (UMap.find r.1.stock_buffers_ s).isSome = true :=
          fun c => List.not_mem_nil s (hiff.mp c)
        rw [if_neg hno]
        rfl
      | cons t0 ts0 =>
        have hyes : (UMap.find r.1.stock_buffers_ s).isSome = true :=
          hiff.mpr (List.mem_singleton_self s)
        rw [if_pos hyes]
        rfl
    · show symbol_points (process_trade r.1 e.1 e.2).1 s = _
      rw [← he, symbol_points_after cfg hpos r.1 hinv, he, ih2,
        CircularBuffer.lastN_lastN_append, List.map_append, List.map_cons, List.map_nil]

theorem symbol_points_length_eq_size (cfg : Config) (m : StockMonitor) (hm : BufInv cfg m)
    (s : String) (b : StockBuffer) (hf : UMap.find m.stock_buffers_ s = some b) :
    b.buffer.size = (symbol_points m s).length := by
  have hw := (hm.2 _ (UMap.find_some_mem _ _ _ hf)).1
  unfold symbol_points
  rw [hf]
  simp only []
  rw [CircularBuffer.get_all_eq_contents _ hw, CircularBuffer.contents_length]
  rfl

/-- C19. In a sequential run (monitor reached from the constructor, `buffer_size > 0`),
`process_trade` for symbol `s` is a get-or-create on the registry: the key list afterwards
is the old one if `s` was present and the old one followed by `s` if it was absent, so the
key set is the old key set plus `s`, with exactly one entry for `s`; the buffer of `s` holds
its earlier points followed by the new point (cut to the last `buffer_size`); the entries
of all other symbols are unchanged. Hence after `k ≥ 1` trades for `s` on a fresh monitor
the registry has exactly one entry, for `s`, whose buffer length is `min k buffer_size`. -/
theorem C19_get_or_create (cfg : Config) (hpos : 0 < cfg.buffer_size) (evs : List Event)
    (m : StockMonitor) (hm : m = (run (StockMonitor.new cfg) evs).1)
    (clk : TradeClock) (trade : TradeData)
    (s : String) (ts : List (TradeClock × TradeData)) (hts : 1 ≤ ts.length)
    (hs : ∀ e ∈ ts, e.2.symbol = s) :
    (UMap.keys (process_trade m clk trade).1.stock_buffers_ =
        if (UMap.find m.stock_buffers_ trade.symbol).isSome = true then
          UMap.keys m.stock_buffers_
        else UMap.keys m.stock_buffers_ ++ [trade.symbol]) ∧
    (∀ x, x ∈ UMap.keys (process_trade m clk trade).1.stock_buffers_ ↔
        x ∈ UMap.keys m.stock_buffers_ ∨ x = trade.symbol) ∧
    (UMap.keys (process_trade m clk trade).1.stock_buffers_).count trade.symbol = 1 ∧
    symbol_points (process_trade m clk trade).1 trade.symbol =
      lastN cfg.buffer_size (symbol_points m trade.symbol ++ [trade_point trade]) ∧
    (∀ x, x ≠ trade.symbol →
      UMap.find (process_trade m clk trade).1.stock_buffers_ x =
        UMap.find m.stock_buffers_ x) ∧
    (UMap.keys (run (StockMonitor.new cfg)
        (ts.map (fun e => Event.trade e.1 e.2))).1.stock_buffers_ = [s] ∧
      ∃ b, UMap.find (run (StockMonitor.new cfg)
          (ts.map (fun e => Event.trade e.1 e.2))).1.stock_buffers_ s = some b ∧
        b.buffer.size = min ts.length cfg.buffer_size) := by
  have hinv : BufInv cfg m := hm ▸ BufInv_run cfg hpos evs
  have hnd : NodupKeys (process_trade m clk trade).1 :=
    NodupKeys_process_trade m (hm ▸ NodupKeys_run cfg evs) clk trade
  have hkeys := registry_keys m clk trade
  have hmem : ∀ x, x ∈ UMap.keys (process_trade m clk trade).1.stock_buffers_ ↔
      x ∈ UMap.keys m.stock_buffers_ ∨ x = trade.symbol := by
    intro x
    rw [hkeys]
    split
    · rename_i hf
      have hin := (UMap.find_isSome_iff_mem_keys _ _).mp hf
      constructor
      · exact fun h => Or.inl h
      · rintro (h | h)
        · exact h
        · rw [h]
          exact hin
    · simp
  refine ⟨hkeys, hmem, ?_, symbol_points_after cfg hpos m hinv clk trade,
    fun x hx => registry_find_other m clk trade x hx, ?_⟩
  · exact List.count_eq_one_of_mem hnd ((hmem _).mpr (Or.inr rfl))
  · obtain ⟨h1, h2⟩ := run_symbol_trades cfg hpos s ts hs
    have hne : ¬ ts.isEmpty = true := by
      intro c
      rw [List.isEmpty_iff.mp c] at hts
      exact absurd hts (by decide)
    rw [if_neg hne] at h1
    refine ⟨h1, ?_⟩
    have hin : s ∈ UMap.keys (run (StockMonitor.new cfg)
        (ts.map (fun e => Event.trade e.1 e.2))).1.stock_buffers_ := by
      rw [h1]
      exact List.mem_singleton_self s
    obtain ⟨b, hb⟩ := Option.isSome_iff_exists.mp ((UMap.find_isSome_iff_mem_keys _ _).mpr hin)
    refine ⟨b, hb, ?_⟩
    rw [symbol_points_length_eq_size cfg _ (BufInv_run cfg hpos _) s b hb, h2, lastN_length,
      List.length_map, Nat.min_comm]

/-- Witness of C19: the ten opening trades of scenario S1 leave one registry entry, for
AAPL. -/
theorem C19_get_or_create_witness :
    UMap.keys (run (StockMonitor.new {})
      (S1_trades.map (fun e => Event.trade e.1 e.2))).1.stock_buffers_ = ["AAPL"] :=
  (C19_get_or_create {} (by decide) [] (StockMonitor.new {}) rfl (S_clock 1000000)
    (S_trade 100 1000000) "AAPL" S1_trades (by decide) (by decide)).2.2.2.2.2.1

/-! ## batch_calculate_changes -/

theorem batch_tail_eq : ∀ (cs ms : List ℚ),
    batch_tail cs ms = List.zipWith (fun c m => ((c - m) / m) * 100) cs ms
  | [], _ => by simp [batch_tail]
  | _ :: _, [] => by simp [batch_tail]
  | c :: cs, m :: ms => by rw [batch_tail, batch_tail_eq cs ms, List.zipWith_cons_cons]

theorem batch_loop_eq : ∀ (cs ms : List ℚ),
    batch_loop cs ms = List.zipWith (fun c m => ((c - m) / m) * 100) cs ms
  | c0 :: c1 :: c2 :: c3 :: cs, m0 :: m1 :: m2 :: m3 :: ms => by
    rw [batch_loop, batch_loop_eq cs ms]
    simp only [List.zipWith_cons_cons]
  | [], ms => by
    rw [batch_loop, batch_tail_eq]
    simp
  | [_], ms => by
    rw [batch_loop, batch_tail_eq]
    simp
  | [_, _], ms => by
    rw [batch_loop, batch_tail_eq]
    simp
  | [_, _, _], ms => by
    rw [batch_loop, batch_tail_eq]
    simp
  | _ :: _ :: _ :: _ :: _, [] => by
    rw [batch_loop, batch_tail_eq]
    simp
  | _ :: _ :: _ :: _ :: _, [_] => by
    rw [batch_loop, batch_tail_eq]
    simp
  | _ :: _ :: _ :: _ :: _, [_, _] => by
    rw [batch_loop, batch_tail_eq]
    simp
  | _ :: _ :: _ :: _ :: _, [_, _, _] => by
    rw [batch_loop, batch_tail_eq]
    simp

theorem batch_calculate_changes_eq (current_prices min_prices : List ℚ) :
    batch_calculate_changes current_prices min_prices =
      List.zipWith (fun c m => ((c - m) / m) * 100) current_prices min_prices :=
  batch_loop_eq _ _

/-- C20, the code at a failing input: with base prices `-1, 2, -4, 1, -1` and all current
prices `1`, `batch_calculate_changes` returns `-200, -50, -125, 0, -200`: at the indices
with a negative base (0 and 2 in the four-lane loop, 4 in the scalar tail) the output is the
quotient, not `0`. -/
theorem C20_batch_negative_base :
    batch_calculate_changes [1, 1, 1, 1, 1] [-1, 2, -4, 1, -1] = [-200, -50, -125, 0, -200] := by
  with_unfolding_all decide

/-! ## get_stats -/

theorem mulUInt64_of_lt (a b : Nat) (h : a * b < 18446744073709551616) :
    mulUInt64 a b = a * b :=
  Nat.mod_eq_of_lt h

theorem addUInt64_of_lt (a b : Nat) (h : a + b < 18446744073709551616) :
    addUInt64 a b = a + b :=
  Nat.mod_eq_of_lt h

theorem memory_estimate_exact (total sb bs pp : Nat)
    (h : total * (sb + bs * pp) < 18446744073709551616) :
    mulUInt64 total (addUInt64 sb (mulUInt64 bs pp)) = total * (sb + bs * pp) := by
  rcases Nat.eq_zero_or_pos total with h0 | h0
  · subst h0
    simp [mulUInt64]
  · have h1 : sb + bs * pp ≤ total * (sb + bs * pp) := Nat.le_mul_of_pos_left _ h0
    have h2 : bs * pp < 18446744073709551616 := by omega
    rw [mulUInt64_of_lt bs pp h2, addUInt64_of_lt _ _ (by omega), mulUInt64_of_lt _ _ h]

theorem cast_div_bounds (n d : Nat) (hd : 0 < d) :
    ((n / d : Nat) : ℚ) ≤ (n : ℚ) / d ∧ (n : ℚ) / d < ((n / d : Nat) : ℚ) + 1 := by
  have hdq : (0 : ℚ) < d := by exact_mod_cast hd
  have hsplit : (n : ℚ) = (d : ℚ) * ((n / d : Nat) : ℚ) + ((n % d : Nat) : ℚ) := by
    exact_mod_cast (Nat.div_add_mod n d).symm
  have hr : ((n % d : Nat) : ℚ) < d := by exact_mod_cast Nat.mod_lt n hd
  have hr0 : (0 : ℚ) ≤ ((n % d : Nat) : ℚ) := by exact_mod_cast Nat.zero_le _
  constructor
  · rw [le_div_iff₀ hdq]
    nlinarith
  · rw [div_lt_iff₀ hdq]
    nlinarith

/-- C21 as stated fails: after two updates with a total processing time of 1501 ns,
`get_stats` reports an average of 0.75 µs, not the exact quotient 0.7505. -/
theorem C21_counterexample :
    (run (StockMonitor.new {}) stats_run).1.total_updates_ = 2 ∧
      (run (StockMonitor.new {}) stats_run).1.total_processing_time_ns_ = 1501 ∧
      (get_stats 0 64 (run (StockMonitor.new {}) stats_run).1).1.avg_processing_time_us = 3 / 4 ∧
      (1501 : ℚ) / 2 / 1000 ≠ 3 / 4 := by
  with_unfolding_all decide

/-- C21, amended. For every counter state with `total_updates > 0`, `get_stats` reports
`avg_processing_time_us` equal to the integer quotient `total_processing_time_ns /
total_updates` (rounded down to whole nanoseconds) divided by 1000: it is at most the exact
quotient, less than 0.001 below it, and equal to it when `total_updates` divides the total
time; it reports 0 when `total_updates = 0`. `memory_usage_bytes` is
`total_stocks * (sizeof(StockBuffer) + buffer_size * sizeof(PricePoint))` in `size_t`
arithmetic, hence that product whenever it fits in 64 bits. -/
theorem C21_stats_values (sizeof_StockBuffer sizeof_PricePoint : Nat) (m : StockMonitor) :
    (0 < m.total_updates_ →
      (get_stats sizeof_StockBuffer sizeof_PricePoint m).1.avg_processing_time_us =
          ((m.total_processing_time_ns_ / m.total_updates_ : Nat) : ℚ) / 1000 ∧
        (get_stats sizeof_StockBuffer sizeof_PricePoint m).1.avg_processing_time_us ≤
          (m.total_processing_time_ns_ : ℚ) / m.total_updates_ / 1000 ∧
        (m.total_processing_time_ns_ : ℚ) / m.total_updates_ / 1000 -
          (get_stats sizeof_StockBuffer sizeof_PricePoint m).1.avg_processing_time_us
            < 1 / 1000 ∧
        (m.total_updates_ ∣ m.total_processing_time_ns_ →
          (get_stats sizeof_StockBuffer sizeof_PricePoint m).1.avg_processing_time_us =
            (m.total_processing_time_ns_ : ℚ) / m.total_updates_ / 1000)) ∧
    (m.total_updates_ = 0 →
      (get_stats sizeof_StockBuffer sizeof_PricePoint m).1.avg_processing_time_us = 0) ∧
    (get_stats sizeof_StockBuffer sizeof_PricePoint m).1.total_stocks =
      m.stock_buffers_.length ∧
    (m.stock_buffers_.length *
        (sizeof_StockBuffer + m.config_.buffer_size * sizeof_PricePoint) <
          18446744073709551616 →
      (get_stats sizeof_StockBuffer sizeof_PricePoint m).1.memory_usage_bytes =
        m.stock_buffers_.length *
          (sizeof_StockBuffer + m.config_.buffer_size * sizeof_PricePoint)) := by
  refine ⟨?_, ?_, rfl, ?_⟩
  · intro hpos
    have havg : (get_stats sizeof_StockBuffer sizeof_PricePoint m).1.avg_processing_time_us =
        ((m.total_processing_time_ns_ / m.total_updates_ : Nat) : ℚ) / 1000 := by
      simp only [get_stats, gt_iff_lt, hpos, if_true]
    have hb := cast_div_bounds m.total_processing_time_ns_ m.total_updates_ hpos
    refine ⟨havg, ?_, ?_, ?_⟩
    · rw [havg]
      exact div_le_div_of_nonneg_right hb.1 (by norm_num)
    · rw [havg]
      have h2 := hb.2
      linarith
    · intro hdvd
      rw [havg, Nat.cast_div hdvd (by exact_mod_cast hpos.ne')]
  · intro h0
    simp only [get_stats, gt_iff_lt, h0, lt_self_iff_false, if_false]
  · intro h
    exact memory_estimate_exact _ _ _ _ h

/-- Witness of C21 (amended): after the two updates of `stats_run` the average is the
integer quotient 750 ns, that is 0.75 µs. -/
theorem C21_stats_values_witness :
    (get_stats 0 64 (run (StockMonitor.new {}) stats_run).1).1.avg_processing_time_us =
      (((run (StockMonitor.new {}) stats_run).1.total_processing_time_ns_ /
        (run (StockMonitor.new {}) stats_run).1.total_updates_ : Nat) : ℚ) / 1000 :=
  ((C21_stats_values 0 64 (run (StockMonitor.new {}) stats_run).1).1
    (by with_unfolding_all decide)).1

/-! ## The window of the analysis -/

theorem analysis_prices_eq (b : StockBuffer) (hb : b.buffer.WF) (now : Int) :
    analysis_prices b now =
      ((lastN 120 b.buffer.get_all).filter (in_window now)).map PricePoint.price := by
  unfold analysis_prices
  rw [CircularBuffer.get_recent_eq _ hb, CircularBuffer.get_all_eq_contents _ hb]

theorem analyze_reduces_over_prices (b : StockBuffer) (now : Int) (a : Analysis)
    (ha : analyze_buffer_simd b now = some a) :
    calculate_min_max_avx2 (analysis_prices b now) = some (a.min_price, a.max_price) ∧
      a.current_price = (analysis_prices b now).getLastD 0 := by
  unfold analyze_buffer_simd at ha
  simp only [] at ha
  split at ha
  · cases ha
  · split at ha
    · cases ha
    · split at ha
      · cases ha
      · rename_i mn mx hmm
        simp only [Option.some.injEq] at ha
        rw [← ha]
        exact ⟨hmm, rfl⟩

set_option maxRecDepth 20000 in
/-- C22 as stated fails for `buffer_size = 121`: all 121 buffered points are inside the
window and the oldest one has the lowest price, 50, but the analysis reduces over 120
prices only and reports the minimum 100. -/
theorem C22_counterexample :
    (wide_buffer.buffer.get_all.filter (in_window 1000200)).length = 121 ∧
      (wide_buffer.buffer.get_all.map PricePoint.price).head? = some 50 ∧
      (analysis_prices wide_buffer 1000200).length = 120 ∧
      (analyze_buffer_simd wide_buffer 1000200).map Analysis.min_price = some 100 :=
  ⟨by with_unfolding_all decide, by with_unfolding_all decide, by with_unfolding_all decide,
    by with_unfolding_all decide⟩

/-- C22, amended. For every configured `buffer_size = C > 0`, every sequence of points
pushed on a fresh buffer and every current time `now`, the buffer holds the last `C` pushed
points and the prices the analysis reduces over are exactly the prices of the most recent
`min 120 C` of them whose event timestamp passes the window filter
(`timestamp ≥ now - 120000`), in push order; for `C ≤ 120` these are the prices of all
buffered in-window points. The minimum, maximum and current price of a result are computed
from this list. -/
theorem C22_analysis_window (C : Nat) (hC : 0 < C) (xs : List PricePoint) (now : Int)
    (last_update : Nat) (last_price : ℚ) :
    (xs.foldl CircularBuffer.push (CircularBuffer.new C)).get_all = lastN C xs ∧
    analysis_prices ⟨xs.foldl CircularBuffer.push (CircularBuffer.new C), last_update,
        last_price⟩ now =
      ((lastN (min 120 C) xs).filter (in_window now)).map PricePoint.price ∧
    (C ≤ 120 →
      analysis_prices ⟨xs.foldl CircularBuffer.push (CircularBuffer.new C), last_update,
          last_price⟩ now =
        (((xs.foldl CircularBuffer.push (CircularBuffer.new C)).get_all).filter
          (in_window now)).map PricePoint.price) ∧
    (∀ a, analyze_buffer_simd ⟨xs.foldl CircularBuffer.push (CircularBuffer.new C),
          last_update, last_price⟩ now = some a →
      calculate_min_max_avx2 (analysis_prices ⟨xs.foldl CircularBuffer.push
          (CircularBuffer.new C), last_update, last_price⟩ now) =
          some (a.min_price, a.max_price) ∧
        a.current_price = (analysis_prices ⟨xs.foldl CircularBuffer.push
          (CircularBuffer.new C), last_update, last_price⟩ now).getLastD 0) := by
  have hw0 : (CircularBuffer.new C : CircularBuffer PricePoint).WF := CircularBuffer.WF_new C hC
  have hw := CircularBuffer.WF_pushes xs _ hw0
  have hga : (xs.foldl CircularBuffer.push (CircularBuffer.new C)).get_all = lastN C xs := by
    rw [CircularBuffer.get_all_eq_contents _ hw, CircularBuffer.contents_pushes xs _ hw0]
    simp [CircularBuffer.contents, CircularBuffer.new]
  have hp : analysis_prices ⟨xs.foldl CircularBuffer.push (CircularBuffer.new C), last_update,
      last_price⟩ now = ((lastN 120 (lastN C xs)).filter (in_window now)).map
        PricePoint.price := by
    rw [analysis_prices_eq _ hw, hga]
  refine ⟨hga, ?_, ?_, fun a ha => analyze_reduces_over_prices _ now a ha⟩
  · rw [hp, lastN_lastN]
  · intro hle
    rw [hp, hga, lastN_lastN, Nat.min_eq_right hle]

/-- Witness of C22 (amended): capacity 3, five pushes; the analysis sees the last three. -/
theorem C22_analysis_window_witness :
    analysis_prices ⟨([⟨1, 10, 1⟩, ⟨2, 20, 1⟩, ⟨3, 30, 1⟩, ⟨4, 40, 1⟩, ⟨5, 50, 1⟩] :
        List PricePoint).foldl CircularBuffer.push (CircularBuffer.new 3), 0, 0⟩ 120000 =
      [3, 4, 5] := by
  have h := (C22_analysis_window 3 (by decide)
    [⟨1, 10, 1⟩, ⟨2, 20, 1⟩, ⟨3, 30, 1⟩, ⟨4, 40, 1⟩, ⟨5, 50, 1⟩] 120000 0 0).2.1
  exact h.trans (by with_unfolding_all decide)

/-! ## The invariant of the threshold table -/

theorem in_band_iff (cfg : Config) (c : ℚ) :
    in_band cfg c = true ↔ cfg.threshold_min ≤ c ∧ c ≤ cfg.threshold_max := by
  simp [in_band]

theorem process_trade_thr_mem_new (m : StockMonitor) (clk : TradeClock) (t : TradeData)
    (e : String × AlertData) (he : e ∈ (process_trade m clk t).1.threshold_stocks_) :
    e ∈ m.threshold_stocks_ ∨
      ∃ a, trade_analysis m clk t = some a ∧ in_band m.config_ a.change_percent = true ∧
        e = (t.symbol, make_alert clk t a) := by
  cases ha : trade_analysis m clk t with
  | none =>
    rw [(process_trade_no_analysis m clk t ha).1] at he
    exact Or.inl (UMap.mem_erase _ _ e he).1
  | some a =>
    cases hb : in_band m.config_ a.change_percent with
    | false =>
      rw [(process_trade_out_of_band m clk t a ha hb).1] at he
      exact Or.inl (UMap.mem_erase _ _ e he).1
    | true =>
      by_cases hd : alert_due m t.symbol a.change_percent
      · rw [(process_trade_due m clk t a ha hb hd).1] at he
        rcases UMap.mem_assign _ _ _ e he with h | h
        · exact Or.inr ⟨a, rfl, hb, h⟩
        · exact Or.inl h
      · rw [(process_trade_not_due m clk t a ha hb hd).1] at he
        exact Or.inl he

theorem ThrInv_iff (m : StockMonitor) :
    ThrInv m ↔
      (∀ e ∈ m.threshold_stocks_, in_band m.config_ e.2.change_percent = true) ∧
        KeyInv m ∧ SubInv m := by
  constructor
  · intro h
    exact ⟨fun e he => (in_band_iff _ _).mpr (h e he).1, fun e he => (h e he).2.1,
      fun e he => (h e he).2.2⟩
  · rintro ⟨h1, h2, h3⟩ e he
    exact ⟨(in_band_iff _ _).mp (h1 e he), h2 e he, h3 e he⟩

theorem ThrInv_process_trade (m : StockMonitor) (hm : ThrInv m) (clk : TradeClock)
    (t : TradeData) : ThrInv (process_trade m clk t).1 := by
  obtain ⟨h1, h2, h3⟩ := (ThrInv_iff m).mp hm
  refine (ThrInv_iff _).mpr ⟨?_, KeyInv_process_trade m h2 clk t, SubInv_process_trade m h3 clk t⟩
  intro e he
  show in_band m.config_ e.2.change_percent = true
  rcases process_trade_thr_mem_new m clk t e he with h | ⟨a, _, hb, h⟩
  · exact h1 e h
  · rw [h]
    exact hb

theorem ThrInv_cleanup (m : StockMonitor) (hm : ThrInv m) (now : Int) :
    ThrInv (cleanup_inactive_stocks m now) := by
  obtain ⟨h1, h2, h3⟩ := (ThrInv_iff m).mp hm
  have hk : KeyInv (cleanup_inactive_stocks m now) := KeyInv_step (m, []) h2 (Event.reap now)
  refine (ThrInv_iff _).mpr ⟨?_, hk, SubInv_cleanup m h3 now⟩
  unfold cleanup_inactive_stocks
  simp only []
  split
  · exact h1
  · exact fun e he => h1 e (UMap.mem_foldl_erase _ _ e he).1

theorem ThrInv_run (cfg : Config) (evs : List Event) :
    ThrInv (run (StockMonitor.new cfg) evs).1 := by
  induction evs using List.reverseRecOn with
  | nil => exact fun e he => by cases he
  | append_singleton evs e ih =>
    rw [run_append]
    cases e with
    | trade clk t => exact ThrInv_process_trade _ ih clk t
    | quote clk q => exact ThrInv_process_trade _ ih clk (quote_to_trade q)
    | reap now => exact ThrInv_cleanup _ ih now
    | set_callback => exact ih

/-- C23. The invariant "every snapshot stored in the threshold table has `change_percent`
within `[threshold_min, threshold_max]`, its `symbol` field equal to its key, and a registry
entry for that symbol" holds of a freshly constructed monitor and is preserved by every
`process_trade`, `process_quote` and reaper tick; hence it holds after every run, and the
keys of the threshold table are always among the keys of the registry. -/
theorem C23_threshold_invariant (cfg : Config) (m : StockMonitor) (hm : ThrInv m)
    (clk : TradeClock) (trade : TradeData) (quote : QuoteData) (now : Int)
    (evs : List Event) :
    ThrInv (StockMonitor.new cfg) ∧
      ThrInv (process_trade m clk trade).1 ∧
      ThrInv (process_quote m clk quote).1 ∧
      ThrInv (cleanup_inactive_stocks m now) ∧
      ThrInv (run (StockMonitor.new cfg) evs).1 ∧
      (∀ k ∈ UMap.keys (run (StockMonitor.new cfg) evs).1.threshold_stocks_,
        k ∈ UMap.keys (run (StockMonitor.new cfg) evs).1.stock_buffers_) := by
  refine ⟨fun e he => (by cases he), ThrInv_process_trade m hm clk trade,
    ThrInv_process_trade m hm clk (quote_to_trade quote), ThrInv_cleanup m hm now,
    ThrInv_run cfg evs, ?_⟩
  intro k hk
  obtain ⟨e, he, hek⟩ := List.mem_map.mp hk
  rw [← hek]
  exact (UMap.find_isSome_iff_mem_keys _ _).mp ((ThrInv_run cfg evs e he).2.2)

/-- Witness of C23: the monitor after scenario S1 satisfies the invariant, and so does the
monitor after one more trade. -/
theorem C23_threshold_invariant_witness :
    ThrInv (run (StockMonitor.new {}) S1).1 ∧
      ThrInv (process_trade (run (StockMonitor.new {}) S1).1 (S_clock 1011000)
        (S_trade (11005 / 100) 1011000)).1 :=
  ⟨by unfold ThrInv; with_unfolding_all decide,
    (C23_threshold_invariant {} (run (StockMonitor.new {}) S1).1
      (by unfold ThrInv; with_unfolding_all decide) (S_clock 1011000)
      (S_trade (11005 / 100) 1011000) S5_quote 4700000 S1).2.1⟩

/-! ## Order of the analysis values -/

theorem getLast?_filter_of_last {β : Type} (f : β → Bool) (l : List β) (x : β)
    (hl : l.getLast? = some x) (hx : f x = true) : (l.filter f).getLast? = some x := by
  obtain ⟨ys, hys⟩ := List.getLast?_eq_some_iff.mp hl
  rw [hys, List.filter_append, List.filter_cons_of_pos hx, List.filter_nil,
    List.getLast?_concat]

theorem getLast?_lastN_of_last {β : Type} (k : Nat) (hk : 0 < k) (l : List β) (x : β)
    (hl : l.getLast? = some x) : (lastN k l).getLast? = some x := by
  obtain ⟨ys, hys⟩ := List.getLast?_eq_some_iff.mp hl
  rw [hys, getLast?_lastN_concat k hk]

theorem analysis_order (b : StockBuffer) (hb : b.buffer.WF) (now : Int) (a : Analysis)
    (ha : analyze_buffer_simd b now = some a) :
    a.min_price ≤ a.current_price ∧ a.current_price ≤ a.max_price ∧ 0 ≤ a.change_percent ∧
      a.change_percent =
        (if a.min_price > 0 then (a.current_price - a.min_price) / a.min_price * 100 else 0) ∧
      (((lastN 120 b.buffer.get_all).filter (in_window now)).getLast?).map PricePoint.price =
        some a.current_price := by
  rw [analyze_eq b hb now] at ha
  generalize (lastN 120 b.buffer.get_all).filter (in_window now) = pts at ha ⊢
  split at ha
  · cases ha
  · split at ha
    · cases ha
    · cases hl : pts.map PricePoint.price with
      | nil =>
        rw [hl] at ha
        cases ha
      | cons p rest =>
        rw [hl] at ha
        simp only [Option.some.injEq] at ha
        have hmin := foldl_min_spec rest p
        have hmax := foldl_max_spec rest p
        have hne : p :: rest ≠ [] := List.cons_ne_nil _ _
        have hcur : (p :: rest).getLastD 0 = (p :: rest).getLast hne := by
          rw [List.getLastD_eq_getLast?, List.getLast?_eq_getLast _ hne]
          rfl
        have hmem : (p :: rest).getLastD 0 ∈ p :: rest := by
          rw [hcur]
          exact List.getLast_mem hne
        have hlo : rest.foldl min p ≤ (p :: rest).getLastD 0 := by
          rcases List.mem_cons.mp hmem with e | e
          · rw [e]
            exact hmin.2.1
          · exact hmin.2.2 _ e
        have hhi : (p :: rest).getLastD 0 ≤ rest.foldl max p := by
          rcases List.mem_cons.mp hmem with e | e
          · rw [e]
            exact hmax.2.1
          · exact hmax.2.2 _ e
        rw [← ha]
        refine ⟨hlo, hhi, ?_, rfl, ?_⟩
        · show 0 ≤ (if rest.foldl min p > 0 then _ else 0)
          split
          · rename_i hpos
            exact mul_nonneg (div_nonneg (sub_nonneg.mpr hlo) (le_of_lt hpos)) (by norm_num)
          · exact le_refl _
        · show (pts.getLast?).map PricePoint.price = some ((p :: rest).getLastD 0)
          rw [← List.getLast?_map, hl, hcur, List.getLast?_eq_getLast _ hne]

theorem current_price_of_in_window_trade (cfg : Config) (hpos : 0 < cfg.buffer_size)
    (m : StockMonitor) (hm : BufInv cfg m) (clk : TradeClock) (t : TradeData) (a : Analysis)
    (ha : trade_analysis m clk t = some a)
    (hw : in_window clk.analyze_ms (trade_point t) = true) : a.current_price = t.price := by
  have hwf := (pushed_buffer_WF cfg hpos m hm clk t).1
  have h := (analysis_order _ hwf clk.analyze_ms a ha).2.2.2.2
  have hlast : (pushed_buffer m clk t).buffer.get_all.getLast? = some (trade_point t) := by
    rw [pushed_buffer_get_all cfg hpos m hm, getLast?_lastN_concat _ hpos]
  rw [getLast?_filter_of_last _ _ _ (getLast?_lastN_of_last 120 (by decide) _ _ hlast) hw] at h
  simp only [Option.map_some', Option.some.injEq, trade_point] at h
  exact h.symm

/-- An out-of-order trade: after eight in-window trades at 100 and one at 110 (nine points,
no analysis yet), a trade at price 1 with a timestamp outside the window completes the ten
points; the analysis runs over the nine in-window prices, its current price is 110, and
AAPL enters the threshold table with `change_percent = 10`. -/
theorem stale_trade_current_price :
    (get_active_stocks (run (StockMonitor.new {}) stale_run).1).map
        (fun x => (x.symbol, x.change_percent, x.current_price, x.min_price)) =
      [("AAPL", 10, 110, 100)] := by
  with_unfolding_all decide

/-- C24. Whenever the analysis returns a result, `min_price ≤ current_price ≤ max_price` and
`change_percent ≥ 0`. Consequently, on a monitor reached by any run from the constructor
(`buffer_size > 0`), a trade leaves its symbol in the threshold table only if the analysis
returned a result whose current price is at or above the window minimum with
`change_percent` (the guarded `(current - min) / min * 100`) inside the band; the current
price is the trade's own price whenever the trade's timestamp is inside the window. And
with `threshold_min > 0`, a symbol whose current price equals the window minimum is not in
the threshold table after its trade. -/
theorem C24_analysis_order (cfg : Config) (hpos : 0 < cfg.buffer_size) (evs : List Event)
    (clk : TradeClock) (trade : TradeData) (b : StockBuffer) (hb : b.buffer.WF) (now : Int) :
    (∀ a, analyze_buffer_simd b now = some a →
      a.min_price ≤ a.current_price ∧ a.current_price ≤ a.max_price ∧
        0 ≤ a.change_percent) ∧
    ((UMap.find (process_trade (run (StockMonitor.new cfg) evs).1 clk
          trade).1.threshold_stocks_ trade.symbol).isSome = true →
      ∃ a, trade_analysis (run (StockMonitor.new cfg) evs).1 clk trade = some a ∧
        a.min_price ≤ a.current_price ∧
        cfg.threshold_min ≤ a.change_percent ∧ a.change_percent ≤ cfg.threshold_max ∧
        a.change_percent =
          (if a.min_price > 0 then (a.current_price - a.min_price) / a.min_price * 100
            else 0) ∧
        (in_window clk.analyze_ms (trade_point trade) = true →
          a.current_price = trade.price)) ∧
    (0 < cfg.threshold_min →
      ∀ a, trade_analysis (run (StockMonitor.new cfg) evs).1 clk trade = some a →
        a.current_price = a.min_price →
        UMap.find (process_trade (run (StockMonitor.new cfg) evs).1 clk
          trade).1.threshold_stocks_ trade.symbol = none) := by
  have hinv := BufInv_run cfg hpos evs
  have hcfg := config_run cfg evs
  generalize (run (StockMonitor.new cfg) evs).1 = m at hinv hcfg ⊢
  have hwf := (pushed_buffer_WF cfg hpos m hinv clk trade).1
  refine ⟨?_, ?_, ?_⟩
  · intro a ha
    have h := analysis_order b hb now a ha
    exact ⟨h.1, h.2.1, h.2.2.1⟩
  · intro hin
    rw [process_trade_find_self] at hin
    unfold trade_in_threshold at hin
    cases ha : trade_analysis m clk trade with
    | none =>
      rw [ha] at hin
      cases hin
    | some a =>
      rw [ha] at hin
      simp only [hcfg] at hin
      have hband := (in_band_iff cfg _).mp hin
      have h := analysis_order _ hwf clk.analyze_ms a ha
      exact ⟨a, rfl, h.1, hband.1, hband.2, h.2.2.2.1,
        current_price_of_in_window_trade cfg hpos m hinv clk trade a ha⟩
  · intro hmin a ha heq
    have h := analysis_order _ hwf clk.analyze_ms a ha
    have hz : a.change_percent = 0 := by
      rw [h.2.2.2.1, heq]
      simp
    have hb2 : in_band m.config_ a.change_percent = false := by
      rw [hcfg, hz]
      cases hc : in_band cfg 0 with
      | false => rfl
      | true =>
        have := ((in_band_iff cfg 0).mp hc).1
        exact absurd hmin (not_lt.mpr this)
    rw [(process_trade_out_of_band m clk trade a ha hb2).1, UMap.find_erase_self]

/-- Witness of C24: in scenario S1 the analysis of the last trade has
`min = 100 ≤ current = 110 ≤ max = 110` and a non-negative `change_percent`. -/
theorem C24_analysis_order_witness :
    (⟨10, 100, 110, 110⟩ : Analysis).min_price ≤ (⟨10, 100, 110, 110⟩ : Analysis).current_price ∧
      (⟨10, 100, 110, 110⟩ : Analysis).current_price ≤
        (⟨10, 100, 110, 110⟩ : Analysis).max_price ∧
      0 ≤ (⟨10, 100, 110, 110⟩ : Analysis).change_percent :=
  (C24_analysis_order {} (by decide) S1_prefix (S_clock 1010000) (S_trade 110 1010000)
    (pushed_buffer (run (StockMonitor.new {}) S1_prefix).1 (S_clock 1010000)
      (S_trade 110 1010000))
    (pushed_buffer_WF {} (by decide) _ (BufInv_run {} (by decide) S1_prefix) _ _).1
    1010000).1 ⟨10, 100, 110, 110⟩ (by with_unfolding_all decide)

end stock_monitor
